import Mathlib

/-!
Shallow embedding of `src/SVGGradientRemover.py` (gradient resolution and fill
rewriting for SVG documents), together with proofs about the embedded program.

Conventions:
* Python strings are modelled as `String` / `List Char`; `str.strip()` is
  modelled on the ASCII whitespace characters.
* Python `dict` (used for attribute maps and style maps) is modelled as an
  association list with the exact `d[k] = v` semantics: updating a present key
  keeps its position, a new key is appended (insertion order is preserved).
* `xml.etree` elements are modelled by the inductive `Element` below.
-/

namespace SVGGR

/-- Python ASCII whitespace, as stripped by `str.strip()` and matched by the
regex whitespace class (space, tab, newline, carriage return, vertical tab,
form feed). -/
def isWS (c : Char) : Bool :=
  c == ' ' || c == Char.ofNat 9 || c == Char.ofNat 10 || c == Char.ofNat 13 ||
  c == Char.ofNat 11 || c == Char.ofNat 12

/-- The single-quote character. -/
def squote : Char := Char.ofNat 39

/-- The double-quote character. -/
def dquote : Char := Char.ofNat 34

/-- Either quote character accepted by the url() reference pattern. -/
def isQuote (c : Char) : Bool := c == squote || c == dquote

/-- Strip leading and trailing whitespace from a character list. -/
def stripL (l : List Char) : List Char :=
  ((l.dropWhile isWS).reverse.dropWhile isWS).reverse

/-- Python `str.strip()`. -/
def pyStrip (s : String) : String := ⟨stripL s.data⟩

/-- The semicolon character. -/
def semiC : Char := ';'

/-- The colon character. -/
def colonC : Char := ':'

/-- Python `s.split(";")`: split on every semicolon, keeping empty pieces. -/
def splitSemi : List Char → List (List Char)
  | [] => [[]]
  | c :: cs =>
    if c = semiC then [] :: splitSemi cs
    else
      match splitSemi cs with
      | [] => [[c]]
      | p :: ps => (c :: p) :: ps

/-- Python `chunk.split(":", 1)`: split at the first colon; `none` when the
chunk contains no colon. -/
def splitFirstColon : List Char → Option (List Char × List Char)
  | [] => none
  | c :: cs =>
    if c = colonC then some ([], cs)
    else (splitFirstColon cs).map (fun p => (c :: p.1, p.2))

/-- Python `d[k] = v` on a dict modelled as an association list: replace the
value in place when the key is present, append otherwise. -/
def dictInsert (m : List (String × String)) (k v : String) : List (String × String) :=
  match m with
  | [] => [(k, v)]
  | (k0, v0) :: rest => if k0 = k then (k0, v) :: rest else (k0, v0) :: dictInsert rest k v

/-- Python `d.get(k)` on a dict modelled as an association list. -/
def lookupA (m : List (String × String)) (k : String) : Option String :=
  match m with
  | [] => none
  | (k0, v0) :: rest => if k0 = k then some v0 else lookupA rest k

/-- One iteration of the loop of `_parse_style`: strip the chunk, skip it when
it is empty or has no colon, otherwise split at the first colon and store the
stripped key and value. -/
def styleChunk (m : List (String × String)) (chunk : List Char) : List (String × String) :=
  let c := stripL chunk
  if c = [] then m
  else
    match splitFirstColon c with
    | none => m
    | some kv => dictInsert m ⟨stripL kv.1⟩ ⟨stripL kv.2⟩

/-- `_parse_style`: split a style attribute on semicolons and fold the chunks
into a dict; a later occurrence of a key overwrites an earlier one. -/
def parseStyle (s : String) : List (String × String) :=
  (splitSemi s.data).foldl styleChunk []

/-- Render one style entry as `k: v` (the f-string of `_format_style`). -/
def entryRender (p : String × String) : List Char :=
  p.1.data ++ colonC :: ' ' :: p.2.data

/-- Python `"; ".join`. -/
def joinSS : List (List Char) → List Char
  | [] => []
  | [x] => x
  | x :: y :: xs => x ++ semiC :: ' ' :: joinSS (y :: xs)

/-- `_format_style`: join `k: v` for the entries with non-empty key and value
with `"; "`, and append a bare semicolon when the dict is non-empty. -/
def formatStyle (m : List (String × String)) : String :=
  ⟨joinSS ((m.filter (fun p => !(p.1 == "") && !(p.2 == ""))).map entryRender) ++
    (if m = [] then [] else [semiC])⟩

/-- The hash character. -/
def hashC : Char := '#'

/-- The closing parenthesis character. -/
def rparC : Char := ')'

/-- The character class of the id capture group of `_URL_REF_RE`: everything
except quotes, the closing parenthesis and whitespace. -/
def isIdChar (c : Char) : Bool := !(isQuote c) && !(c == rparC) && !(isWS c)

/-- Consume the optional quote of `_URL_REF_RE`. -/
def dropOptQuote (l : List Char) : List Char :=
  match l with
  | c :: cs => if isQuote c then cs else l
  | [] => []

/-- The part of `_URL_REF_RE` after the literal `url(`: optional whitespace,
an optional quote, `#`, a non-empty run of id characters (captured), an
optional quote, optional whitespace, `)`, optional trailing whitespace. -/
def urlRefBody (r0 : List Char) : Option (List Char) :=
  let r1 := dropOptQuote (r0.dropWhile isWS)
  if r1.head? = some hashC then
    let r2 := r1.tail
    let idc := r2.takeWhile isIdChar
    if idc = [] then none
    else
      let r3 := (dropOptQuote (r2.dropWhile isIdChar)).dropWhile isWS
      if r3.head? = some rparC ∧ r3.tail.all isWS then some idc else none
  else none

/-- `_URL_REF_RE`: anchored match of the literal `url(` followed by
`urlRefBody`.  Returns the captured identifier on success. -/
def matchUrlRef (l : List Char) : Option (List Char) :=
  if l.take 4 = ['u', 'r', 'l', '('] then urlRefBody (l.drop 4) else none

/-- `_is_fill_url_ref`: strip the attribute value, match the url reference
pattern and compare the captured identifier with the gradient id. -/
def isFillUrlRef (value gid : String) : Bool :=
  match matchUrlRef (stripL value.data) with
  | some idc => if idc = gid.data then true else false
  | none => false

/-- An `xml.etree.ElementTree` element: tag, attribute dict (insertion order
preserved), child elements, text and tail.  Object identity of the Python
elements is modelled by structural equality, which agrees with identity on
the element maps the program builds whenever gradient ids are distinct. -/
inductive Element : Type where
  | mk : String → List (String × String) → List Element → Option String → Option String → Element

mutual

/-- Structural equality test for elements. -/
def elemBEq : Element → Element → Bool
  | .mk t a ch tx tl, .mk t' a' ch' tx' tl' =>
    t == t' && a == a' && elemBEqList ch ch' && tx == tx' && tl == tl'

/-- Structural equality test for lists of elements. -/
def elemBEqList : List Element → List Element → Bool
  | [], [] => true
  | e :: es, f :: fs => elemBEq e f && elemBEqList es fs
  | [], _ :: _ => false
  | _ :: _, [] => false

end

/-- Recursion principle for `Element` that hands the hypothesis to every child. -/
def elemRec {P : Element → Prop}
    (h : ∀ t a ch tx tl, (∀ e ∈ ch, P e) → P (.mk t a ch tx tl)) : ∀ e, P e
  | .mk t a ch tx tl => h t a ch tx tl (fun e he => elemRec h e)
termination_by e => sizeOf e
decreasing_by
  have := List.sizeOf_lt_of_mem he
  simp only [Element.mk.sizeOf_spec]
  omega

theorem elemBEqList_iff
    (ch : List Element) (ih : ∀ e ∈ ch, ∀ f, elemBEq e f = true ↔ e = f) :
    ∀ ch', elemBEqList ch ch' = true ↔ ch = ch' := by
  induction ch with
  | nil => intro ch'; cases ch' <;> simp [elemBEqList]
  | cons e es ihs =>
    intro ch'
    cases ch' with
    | nil => simp [elemBEqList]
    | cons f fs =>
      have h1 := ih e (by simp)
      have h2 := ihs (fun x hx f' => ih x (by simp [hx]) f') fs
      simp [elemBEqList, Bool.and_eq_true, h1, h2]

theorem elemBEq_iff : ∀ e f : Element, elemBEq e f = true ↔ e = f := by
  intro e
  induction e using elemRec with
  | _ t a ch tx tl ih =>
    intro f
    cases f with
    | mk t' a' ch' tx' tl' =>
      have hl := elemBEqList_iff ch ih ch'
      simp [elemBEq, Bool.and_eq_true, hl, Element.mk.injEq, beq_iff_eq]
      tauto

instance : DecidableEq Element := fun a b => decidable_of_iff _ (elemBEq_iff a b)

/-- Tag of an element. -/
def Element.tag : Element → String
  | .mk t _ _ _ _ => t

/-- Attribute dict of an element. -/
def Element.attrs : Element → List (String × String)
  | .mk _ a _ _ _ => a

/-- Direct children of an element. -/
def Element.children : Element → List Element
  | .mk _ _ ch _ _ => ch

/-- Text of an element. -/
def Element.text : Element → Option String
  | .mk _ _ _ tx _ => tx

/-- Tail of an element. -/
def Element.tail : Element → Option String
  | .mk _ _ _ _ tl => tl

/-- Python `elem.get(k)`. -/
def getAttr (e : Element) (k : String) : Option String := lookupA e.attrs k

/-- Python `elem.set(k, v)` (dict assignment on the attribute map). -/
def setAttr (e : Element) (k v : String) : Element :=
  .mk e.tag (dictInsert e.attrs k v) e.children e.text e.tail

/-- The style branch of `_extract_stop_color`: when the element carries a
non-empty `style` attribute, parse it and return the stripped `stop-color`
entry when that entry is truthy. -/
def extractStopColorStyle (e : Element) : Option String :=
  match getAttr e "style" with
  | some st =>
    if st = "" then none
    else
      match lookupA (parseStyle st) "stop-color" with
      | some c => if c = "" then none else some (pyStrip c)
      | none => none
  | none => none

/-- `_extract_stop_color`: prefer a truthy direct `stop-color` attribute
(stripped), otherwise fall back to the style branch. -/
def extractStopColor (e : Element) : Option String :=
  match getAttr e "stop-color" with
  | some c => if c = "" then extractStopColorStyle e else some (pyStrip c)
  | none => extractStopColorStyle e

/-- The body of the stop loop of `_first_gradient_color`: a child contributes a
color when its tag ends with "stop" and `_extract_stop_color` returns a truthy
value. -/
def stopYield (e : Element) : Option String :=
  if ("stop".data).isSuffixOf e.tag.data then
    match extractStopColor e with
    | some c => if c = "" then none else some c
    | none => none
  else none

/-- The stop loop of `_first_gradient_color`: first child that yields a color. -/
def firstStopColor (g : Element) : Option String := g.children.findSome? stopYield

/-- The XLink-namespaced `href` attribute name, as `xml.etree` spells it. -/
def xlinkHref : String := "\x7bhttp://www.w3.org/1999/xlink\x7dhref"

/-- The XLink-namespaced `HREF` attribute name. -/
def xlinkHREF : String := "\x7bhttp://www.w3.org/1999/xlink\x7dHREF"

/-- Python `a or b` for optional strings (first truthy operand). -/
def orTruthy (a b : Option String) : Option String :=
  match a with
  | some s => if s = "" then b else some s
  | none => b

/-- The `href` lookup of `_first_gradient_color`: first truthy attribute among
xlink:href, href, xlink:HREF, HREF; a falsy final value is normalised to
`none` (the code then skips the branch). -/
def getHref (g : Element) : Option String :=
  match orTruthy (getAttr g xlinkHref) (orTruthy (getAttr g "href")
      (orTruthy (getAttr g xlinkHREF) (getAttr g "HREF"))) with
  | some s => if s = "" then none else some s
  | none => none

/-- `d.get(k)` for the id-to-gradient dict. -/
def lookupE (m : List (String × Element)) (k : String) : Option Element :=
  match m with
  | [] => none
  | (k0, v0) :: rest => if k0 = k then some v0 else lookupE rest k

/-- `d[k] = v` for the id-to-gradient dict. -/
def dictInsertE (m : List (String × Element)) (k : String) (v : Element) :
    List (String × Element) :=
  match m with
  | [] => [(k, v)]
  | (k0, v0) :: rest => if k0 = k then (k0, v) :: rest else (k0, v0) :: dictInsertE rest k v

/-- `_first_gradient_color`, with an explicit recursion-depth fuel: the Python
function recurses with no visited-set, so it is partial; `none` means the
given depth was exhausted (unbounded recursion in the source), `some r` means
the source returns `r` within that depth.  The `ref is not gradient` identity
test is modelled by structural equality. -/
def firstGradientColorF (byId : List (String × Element)) : Nat → Element → Option (Option String)
  | 0, _ => none
  | fuel + 1, g =>
    match firstStopColor g with
    | some c => some (some c)
    | none =>
      match getHref g with
      | some h =>
        if h.data.head? = some hashC then
          match lookupE byId ⟨h.data.drop 1⟩ with
          | some ref => if ref = g then some none else firstGradientColorF byId fuel ref
          | none => some none
        else some none
      | none => some none

/-- The per-element attribute rewrite of `_replace_fill_attributes`: replace a
truthy direct `fill` attribute that is a url reference to `gid`, then replace
the `fill` entry of a truthy `style` attribute when that entry is a url
reference to `gid`, re-serialising the style dict. -/
def rewriteAttrs (gid c : String) (a : List (String × String)) : List (String × String) :=
  let a1 :=
    match lookupA a "fill" with
    | some f => if f ≠ "" ∧ isFillUrlRef f gid then dictInsert a "fill" c else a
    | none => a
  match lookupA a1 "style" with
  | some st =>
    if st = "" then a1
    else
      let m := parseStyle st
      match lookupA m "fill" with
      | some sf =>
        if sf ≠ "" ∧ isFillUrlRef sf gid then
          dictInsert a1 "style" (formatStyle (dictInsert m "fill" c))
        else a1
      | none => a1
  | none => a1

mutual

/-- `_replace_fill_attributes` as a tree transform: `root.iter()` visits the
root and every descendant, and each visited element gets the attribute rewrite
above.  (The function's integer return value is used by the source only for
logging and is not modelled.) -/
def replaceTree (gid c : String) : Element → Element
  | .mk t a ch tx tl => .mk t (rewriteAttrs gid c a) (replaceTreeList gid c ch) tx tl

/-- `replaceTree` mapped over a list of sibling elements. -/
def replaceTreeList (gid c : String) : List Element → List Element
  | [] => []
  | e :: es => replaceTree gid c e :: replaceTreeList gid c es

end

mutual

/-- An element together with all of its descendants, in document order. -/
def descTree : Element → List Element
  | .mk t a ch tx tl => Element.mk t a ch tx tl :: descListOf ch

/-- `descTree` over a list of siblings, concatenated. -/
def descListOf : List Element → List Element
  | [] => []
  | e :: es => descTree e ++ descListOf es

end

/-- All proper descendants of `root` in document order (`root.iter()` minus
the root itself, which is how `.//` starts). -/
def descendantsOf (root : Element) : List Element := descListOf root.children

/-- The local part of a possibly namespace-qualified tag (`\x7bns\x7dlocal`),
which is what the `\x7b*\x7d` wildcard of `findall` matches on. -/
def localName (t : String) : String :=
  if t.data.head? = some (Char.ofNat 123) then
    ⟨(t.data.dropWhile (fun c => !(c == Char.ofNat 125))).drop 1⟩
  else t

/-- `_find_linear_gradients`: `root.findall(".//\x7b*\x7ddefs/\x7b*\x7dlinearGradient")` —
every element with local name `linearGradient` that is a direct child of a
descendant with local name `defs`. -/
def gradientsOf (root : Element) : List Element :=
  ((descendantsOf root).filter (fun d => localName d.tag == "defs")).flatMap
    (fun d => d.children.filter (fun c => localName c.tag == "linearGradient"))

/-- The id map built by `process_svg`: `gradient_by_id[gid] = g` for each found
gradient with a truthy id. -/
def buildById (gs : List Element) : List (String × Element) :=
  gs.foldl
    (fun m g =>
      match getAttr g "id" with
      | some gid => if gid = "" then m else dictInsertE m gid g
      | none => m)
    []

/-- One iteration of the gradient loop of `process_svg`: skip a gradient with
a falsy id, resolve its color (`none` = the resolution recursed past the given
depth), skip when the color is falsy, otherwise rewrite every matching fill in
the tree. -/
def processStep (byId : List (String × Element)) (fuel : Nat) (acc : Element) (g : Element) :
    Option Element :=
  match getAttr g "id" with
  | none => some acc
  | some gid =>
    if gid = "" then some acc
    else
      match firstGradientColorF byId fuel g with
      | none => none
      | some none => some acc
      | some (some c) => if c = "" then some acc else some (replaceTree gid c acc)

/-- The gradient loop of `process_svg`, step `k`.  The source iterates over
element references into the tree it mutates in place, so the `k`-th iteration
sees the accumulated rewrites; the functional rendering re-reads the `k`-th
gradient (and the id map) from the current tree, which coincides with the
in-place semantics because the rewrite preserves document structure, tags and
ids. -/
def processStepAt (fuel : Nat) (acc : Element) (k : Nat) : Option Element :=
  let gs := gradientsOf acc
  match gs[k]? with
  | none => some acc
  | some g => processStep (buildById gs) fuel acc g

/-- The pure tree transformation of `process_svg` (parsing, indentation and
serialisation aside): run the gradient loop over all found gradients.  The
result is `none` when some resolution exhausts the recursion depth `fuel`. -/
def processTreeF (fuel : Nat) (root : Element) : Option Element :=
  (List.range (gradientsOf root).length).foldlM (processStepAt fuel) root

/-- The environment `main` runs in: whether the input path exists, the result
of XML parsing (`none` models an `ET.ParseError`), and whether the external
SVG-to-PDF renderer succeeds. -/
structure MainEnv : Type where
  inputExists : Bool
  parseResult : Option Element
  renderOk : Bool

/-- Observable outcome of `main`: the exit code and which output files were
written. -/
structure MainResult : Type where
  exitCode : Nat
  svgWritten : Bool
  pdfWritten : Bool
deriving DecidableEq

/-- `main`: return 2 when the input file is missing (before anything is
written); parse the input, a parse error exits 3 with nothing written; a
resolution that recurses without bound is a runtime error caught by the
generic handler, exiting 1 with nothing written (the parse error is raised by
`ET.parse` before `tree.write` runs); otherwise the rewritten SVG is written,
and the renderer either succeeds (exit 0, PDF written) or fails (exit 1, PDF
not written). -/
def mainModel (fuel : Nat) (env : MainEnv) : MainResult :=
  if env.inputExists = false then ⟨2, false, false⟩
  else
    match env.parseResult with
    | none => ⟨3, false, false⟩
    | some tree =>
      match processTreeF fuel tree with
      | none => ⟨1, false, false⟩
      | some _ =>
        if env.renderOk then ⟨0, true, true⟩ else ⟨1, true, false⟩

/-- A gradient resolves to color `c` when `_first_gradient_color` returns `c`
within some recursion depth. -/
def ResolvesTo (byId : List (String × Element)) (g : Element) (c : String) : Prop :=
  ∃ fuel, firstGradientColorF byId fuel g = some (some c)

/-- First element of a two-gradient href cycle: no stops, href to `cycB`. -/
def cycA : Element := .mk "linearGradient" [("id", "ga"), ("href", "#gb")] [] none none

/-- Second element of the cycle: no stops, href back to `cycA`. -/
def cycB : Element := .mk "linearGradient" [("id", "gb"), ("href", "#ga")] [] none none

/-- The id map `process_svg` would build for the two-gradient cycle. -/
def cycById : List (String × Element) := [("ga", cycA), ("gb", cycB)]

/-- A gradient whose href points at itself. -/
def selfG : Element := .mk "linearGradient" [("id", "gs"), ("href", "#gs")] [] none none

/-- Id map for the self-referencing gradient. -/
def selfById : List (String × Element) := [("gs", selfG)]

/-- Referencing gradient of a two-link chain: no stops, href to `wB`. -/
def wA : Element := .mk "linearGradient" [("id", "wa"), ("href", "#wb")] [] none none

/-- Referenced gradient of the chain, with a direct stop color. -/
def wB : Element :=
  .mk "linearGradient" [("id", "wb")]
    [.mk "stop" [("stop-color", "red")] [] none none] none none

/-- Id map of the two-link chain. -/
def wById : List (String × Element) := [("wa", wA), ("wb", wB)]

/-- A document with no linearGradient under any defs (but with a defs-free
gradient-looking fill reference, which must stay untouched). -/
def noGradDoc : Element :=
  .mk "svg" [] [.mk "rect" [("fill", "url(#g1)")] [] none none] none none

/-- A small document with one resolvable gradient in a defs block and one
element carrying a fill reference to it. -/
def pDoc : Element :=
  .mk "svg" []
    [.mk "defs" []
      [.mk "linearGradient" [("id", "pg")]
        [.mk "stop" [("stop-color", "teal")] [] none none] none none] none none,
     .mk "rect" [("fill", "url(#pg)"), ("x", "1")] [] none none] none none

/-- The document above after the gradient loop: the fill reference became the
resolved color, everything else is untouched. -/
def pOut : Element :=
  .mk "svg" []
    [.mk "defs" []
      [.mk "linearGradient" [("id", "pg")]
        [.mk "stop" [("stop-color", "teal")] [] none none] none none] none none,
     .mk "rect" [("fill", "teal"), ("x", "1")] [] none none] none none

/-- Optional whitespace, then the closing parenthesis, then the end of the
(already trimmed) value. -/
def tailParen (l : List Char) : Bool :=
  match l.dropWhile isWS with
  | [c] => c = rparC
  | _ => false

/-- The fill-reference test as the claim words it, with the closing quote
required to match the opening one: after trimming, the value must be exactly
`url(`, optional whitespace, an optional quote, `#`, the identifier equal to
the gradient id, the matching closing quote exactly when a quote was opened,
optional whitespace and `)`. -/
def specFillUrlRefStrict (value gid : String) : Bool :=
  match stripL value.data with
  | 'u' :: 'r' :: 'l' :: '(' :: r0 =>
    (match r0.dropWhile isWS with
    | c :: rest =>
      if isQuote c then
        match rest with
        | c1 :: r2 =>
          if c1 = hashC then
            let idc := r2.takeWhile isIdChar
            if idc = [] ∨ idc ≠ gid.data then false
            else
              match r2.dropWhile isIdChar with
              | q :: r4 => if q = c then tailParen r4 else false
              | [] => false
          else false
        | [] => false
      else if c = hashC then
        let idc := rest.takeWhile isIdChar
        if idc = [] ∨ idc ≠ gid.data then false
        else tailParen (rest.dropWhile isIdChar)
      else false
    | [] => false)
  | _ => false

/-- Render an optional quote. -/
def optQ : Option Char → List Char
  | none => []
  | some c => [c]

/-- An optional character that, when present, is a quote. -/
def QuoteOpt (q : Option Char) : Prop := ∀ c, q = some c → isQuote c = true

/-- The amended fill-reference property: the trimmed value decomposes as
`url(`, whitespace, an optional quote, `#`, the gradient id (non-empty, all
id characters), an independently optional quote (matching not required),
whitespace, `)`, trailing whitespace. -/
def AmendedFillRef (value gid : String) : Prop :=
  gid.data ≠ [] ∧ gid.data.all isIdChar = true ∧
  ∃ (w1 : List Char) (q1 q2 : Option Char) (w2 w3 : List Char),
    w1.all isWS = true ∧ w2.all isWS = true ∧ w3.all isWS = true ∧
    QuoteOpt q1 ∧ QuoteOpt q2 ∧
    stripL value.data =
      'u' :: 'r' :: 'l' :: '(' ::
        (w1 ++ (optQ q1 ++ hashC :: (gid.data ++ (optQ q2 ++ (w2 ++ rparC :: w3)))))

/-- The style entry a stop falls back to, as the spec words it: a truthy
`style` attribute is parsed and `stop-color` looked up. -/
def specStyleEntry (e : Element) : Option String :=
  match getAttr e "style" with
  | some st => if st = "" then none else lookupA (parseStyle st) "stop-color"
  | none => none

/-- The color candidate of one stop, as the spec words it: prefer a truthy
direct `stop-color` attribute, otherwise the style entry. -/
def specStopCandidate (e : Element) : Option String :=
  match getAttr e "stop-color" with
  | some c => if c = "" then specStyleEntry e else some c
  | none => specStyleEntry e

/-- What one stop contributes, as the spec words it: the candidate's
whitespace-trimmed value when that is non-empty. -/
def specStopYield (e : Element) : Option String :=
  match specStopCandidate e with
  | some c => if pyStrip c = "" then none else some (pyStrip c)
  | none => none

/-- The scan as the claim words it, reading "tag is stop" as the
namespace-agnostic local-name test: first child with local name `stop` that
yields a color. -/
def specScanLocal (g : Element) : Option String :=
  g.children.findSome? (fun e => if localName e.tag = "stop" then specStopYield e else none)

/-- The scan with the tag test the code actually performs: first child whose
tag merely ends with `stop` that yields a color. -/
def specScanSuffix (g : Element) : Option String :=
  g.children.findSome?
    (fun e => if ("stop".data).isSuffixOf e.tag.data then specStopYield e else none)

/-- C5 counterexample gradient: the first child is tagged `nonstop` (not a
stop, but its tag ends with "stop") carrying red; the first true stop carries
blue. -/
def c5G : Element :=
  .mk "linearGradient" [("id", "g5")]
    [.mk "nonstop" [("stop-color", "red")] [] none none,
     .mk "stop" [("stop-color", "blue")] [] none none] none none

/-- Well-formedness of a style key as produced by `_parse_style`: stripped,
free of semicolons and free of colons. -/
def keyWF (k : String) : Prop :=
  stripL k.data = k.data ∧
  k.data.all (fun c => !(c == semiC)) = true ∧
  k.data.all (fun c => !(c == colonC)) = true

/-- Well-formedness of a style value as produced by `_parse_style`: stripped
and free of semicolons. -/
def valWF (v : String) : Prop :=
  stripL v.data = v.data ∧ v.data.all (fun c => !(c == semiC)) = true

/-- The key/value pair one chunk of a style string contributes, when it does
(stripped non-empty chunk containing a colon). -/
def chunkKV (chunk : List Char) : Option (String × String) :=
  let c := stripL chunk
  if c = [] then none
  else
    match splitFirstColon c with
    | none => none
    | some kv => some (⟨stripL kv.1⟩, ⟨stripL kv.2⟩)

/-- The last value a key receives over a chunk list, as the claim words the
duplicate rule: walking the chunks from the end, the first chunk that parses
to the key gives its value. -/
def lastChunkVal (k : String) (chunks : List (List Char)) : Option String :=
  chunks.reverse.findSome?
    (fun ch =>
      match chunkKV ch with
      | some kv => if kv.1 = k then some kv.2 else none
      | none => none)

/-- C3 counterexample element: its style carries the declaration `x:` with an
empty value next to the fill reference. -/
def c3E : Element := .mk "rect" [("style", "fill:url(#g3);x:")] [] none none

/-- The invariant `_parse_style` maintains on its dict: every entry has a
well-formed key and value, and the keys are pairwise distinct. -/
def StyleWF (m : List (String × String)) : Prop :=
  (∀ p ∈ m, keyWF p.1 ∧ valWF p.2) ∧ (m.map Prod.fst).Nodup

/-- C3 witness element: a style with a fill reference and one other
declaration. -/
def c3W : Element := .mk "rect" [("style", "fill:url(#g9); stroke: blue")] [] none none

mutual

/-- Frame preservation between an element and its rewritten form: same tag,
text and tail, the same attribute keys in the same order, the same value for
every key other than `fill` and `style`, and children pairwise preserved. -/
def framePres : Element → Element → Bool
  | .mk t a ch tx tl, .mk t' a' ch' tx' tl' =>
    t == t' && tx == tx' && tl == tl' &&
    (a.map Prod.fst == a'.map Prod.fst) &&
    ((a.map Prod.fst).all
      (fun k => k == "fill" || k == "style" || lookupA a' k == lookupA a k)) &&
    framePresList ch ch'

/-- `framePres` over sibling lists, pointwise. -/
def framePresList : List Element → List Element → Bool
  | [], [] => true
  | e :: es, f :: fs => framePres e f && framePresList es fs
  | [], _ :: _ => false
  | _ :: _, [] => false

end

/-- The `fill` test an element's direct attribute undergoes in
`_replace_fill_attributes`. -/
def fillHits (gid : String) (a : List (String × String)) : Bool :=
  match lookupA a "fill" with
  | some v => if v ≠ "" ∧ isFillUrlRef v gid then true else false
  | none => false

/-- The style-embedded `fill` test of `_replace_fill_attributes`. -/
def styleHits (gid : String) (a : List (String × String)) : Bool :=
  match lookupA a "style" with
  | some st =>
    if st ≠ "" then
      match lookupA (parseStyle st) "fill" with
      | some sf => if sf ≠ "" ∧ isFillUrlRef sf gid then true else false
      | none => false
    else false
  | none => false

mutual

/-- Between an original and an output element: every direct `fill` attribute
that is a url reference to `gid` keeps its exact value, and every `style`
attribute whose parsed fill is a url reference to `gid` keeps its exact
value; recursively for the children. -/
def fillsPreserved (gid : String) : Element → Element → Bool
  | .mk _ a ch _ _, .mk _ a' ch' _ _ =>
    (if fillHits gid a then lookupA a' "fill" == lookupA a "fill" else true) &&
    (if styleHits gid a then lookupA a' "style" == lookupA a "style" else true) &&
    fillsPreservedList gid ch ch'

/-- `fillsPreserved` over sibling lists, pointwise. -/
def fillsPreservedList (gid : String) : List Element → List Element → Bool
  | [], [] => true
  | e :: es, f :: fs => fillsPreserved gid e f && fillsPreservedList gid es fs
  | [], _ :: _ => false
  | _ :: _, [] => false

end

/-- A string free of semicolons: substituted as a style value, it cannot
inject extra declarations when the style dict is re-serialised. -/
def noSemi (s : String) : Bool := s.data.all (fun ch => !(ch == semiC))

/-- Every stop color `_extract_stop_color` could produce anywhere in the tree
satisfies `P`. -/
def stopsPred (P : String → Bool) (root : Element) : Bool :=
  (descTree root).all (fun e =>
    match extractStopColor e with
    | some c => P c
    | none => true)

/-- Every extractable stop color in the tree is semicolon-free. -/
def stopsPlain (root : Element) : Bool := stopsPred noSemi root

/-- A plain color token: semicolon-free and not itself a url reference. -/
def goodColor (c : String) : Bool := noSemi c && (matchUrlRef (stripL c.data)).isNone

/-- Every extractable stop color in the tree is a plain non-reference token. -/
def stopsGood (root : Element) : Bool := stopsPred goodColor root

/-- No element of the tree passes the direct-fill or the style-fill test for
`gid`: the document carries no remaining reference to that gradient id. -/
def noMatch (gid : String) (root : Element) : Bool :=
  (descTree root).all (fun e => !(fillHits gid e.attrs) && !(styleHits gid e.attrs))

/-- Gradient index `j` has been fully handled in `acc`: if it denotes a
gradient with a truthy id, that gradient's resolution terminates, and when it
terminates with a usable color the tree no longer references the id. -/
def StepDone (fuel : Nat) (acc : Element) (j : Nat) : Prop :=
  ∀ g, (gradientsOf acc)[j]? = some g →
    ∀ gid, getAttr g "id" = some gid → gid ≠ "" →
      ∃ r, firstGradientColorF (buildById (gradientsOf acc)) fuel g = some r ∧
        (r = none ∨ r = some "" ∨ ∃ c, r = some c ∧ c ≠ "" ∧ noMatch gid acc = true)

/-- C6 counterexample, first gradient: resolvable, but its color smuggles a
`stop-color` declaration behind a semicolon. -/
def c6G1 : Element :=
  .mk "linearGradient" [("id", "g1")]
    [.mk "stop" [("stop-color", "zz;stop-color:green")] [] none none] none none

/-- C6 counterexample, second gradient: initially unresolvable — its only
stop has no stop-color, merely a style whose fill references `g1`. -/
def c6G2 : Element :=
  .mk "linearGradient" [("id", "g2")]
    [.mk "stop" [("style", "fill:url(#g1)")] [] none none] none none

/-- C6 counterexample document: both gradients under defs, and an element
whose fill references the unresolvable `g2`. -/
def c6Doc : Element :=
  .mk "svg" []
    [.mk "defs" [] [c6G1, c6G2] none none,
     .mk "rect" [("fill", "url(#g2)")] [] none none] none none

/-- What the run produces on `c6Doc`: the pass for `g1` rewrote the stop's
style, whose re-parse then yields `stop-color: green` for `g2`, so the
`url(#g2)` fill does not survive. -/
def c6Out : Element :=
  .mk "svg" []
    [.mk "defs" []
      [c6G1,
       .mk "linearGradient" [("id", "g2")]
        [.mk "stop" [("style", "fill: zz;stop-color:green;")] [] none none] none none]
      none none,
     .mk "rect" [("fill", "green")] [] none none] none none

/-- C6 witness document: a gradient with no stops and no href (unresolvable),
referenced by an element's fill. -/
def c6WDoc : Element :=
  .mk "svg" []
    [.mk "defs" [] [.mk "linearGradient" [("id", "gu")] [] none none] none none,
     .mk "rect" [("fill", "url(#gu)")] [] none none] none none

/-- C9 counterexample document: `h2` (listed first) resolves to `red`; `h1`'s
stop color is itself the reference `url(#h2)`. -/
def c9Doc : Element :=
  .mk "svg" []
    [.mk "defs" []
      [.mk "linearGradient" [("id", "h2")]
        [.mk "stop" [("stop-color", "red")] [] none none] none none,
       .mk "linearGradient" [("id", "h1")]
        [.mk "stop" [("stop-color", "url(#h2)")] [] none none] none none] none none,
     .mk "rect" [("fill", "url(#h1)")] [] none none] none none

/-- `c9Doc` after one application: the rect's fill became `url(#h2)` — a
still-resolvable reference. -/
def c9Mid : Element :=
  .mk "svg" []
    [.mk "defs" []
      [.mk "linearGradient" [("id", "h2")]
        [.mk "stop" [("stop-color", "red")] [] none none] none none,
       .mk "linearGradient" [("id", "h1")]
        [.mk "stop" [("stop-color", "url(#h2)")] [] none none] none none] none none,
     .mk "rect" [("fill", "url(#h2)")] [] none none] none none

/-- `c9Mid` after a second application: the rect's fill finally becomes
`red`, so the first application was not idempotent. -/
def c9Out2 : Element :=
  .mk "svg" []
    [.mk "defs" []
      [.mk "linearGradient" [("id", "h2")]
        [.mk "stop" [("stop-color", "red")] [] none none] none none,
       .mk "linearGradient" [("id", "h1")]
        [.mk "stop" [("stop-color", "url(#h2)")] [] none none] none none] none none,
     .mk "rect" [("fill", "red")] [] none none] none none

/-- C9 witness document: one plainly-colored gradient and one reference. -/
def c9WDoc : Element :=
  .mk "svg" []
    [.mk "defs" []
      [.mk "linearGradient" [("id", "w9")]
        [.mk "stop" [("stop-color", "navy")] [] none none] none none] none none,
     .mk "rect" [("fill", "url(#w9)")] [] none none] none none

/-- `c9WDoc` after one application. -/
def c9WOut : Element :=
  .mk "svg" []
    [.mk "defs" []
      [.mk "linearGradient" [("id", "w9")]
        [.mk "stop" [("stop-color", "navy")] [] none none] none none] none none,
     .mk "rect" [("fill", "navy")] [] none none] none none

/-! ## Theorems -/

theorem quote_not_ws {c : Char} (h : isQuote c = true) : isWS c = false := by
  simp only [isQuote, Bool.or_eq_true, beq_iff_eq] at h
  rcases h with h | h <;> subst h <;> decide

theorem ws_not_quote {c : Char} (h : isWS c = true) : isQuote c = false := by
  simp only [isWS, Bool.or_eq_true, beq_iff_eq] at h
  obtain ((((h | h) | h) | h) | h) | h := h <;> subst h <;> decide

theorem ws_not_idChar {c : Char} (h : isWS c = true) : isIdChar c = false := by
  simp [isIdChar, h]

theorem quote_not_idChar {c : Char} (h : isQuote c = true) : isIdChar c = false := by
  simp [isIdChar, h]

theorem takeDrop_append (p : Char → Bool) (xs ys : List Char)
    (hxs : xs.all p = true) (hys : ∀ c, ys.head? = some c → p c = false) :
    (xs ++ ys).takeWhile p = xs ∧ (xs ++ ys).dropWhile p = ys := by
  induction xs with
  | nil =>
    cases ys with
    | nil => simp
    | cons y ys' =>
      have := hys y rfl
      simp [List.takeWhile, List.dropWhile, this]
  | cons x xs' ih =>
    simp only [List.all_cons, Bool.and_eq_true] at hxs
    have h2 := ih hxs.2
    simp [List.takeWhile, List.dropWhile, hxs.1, h2.1, h2.2]

theorem dropOptQuote_optQ (q : Option Char) (rest : List Char)
    (hq : QuoteOpt q) (hrest : ∀ c, rest.head? = some c → isQuote c = false) :
    dropOptQuote (optQ q ++ rest) = rest := by
  cases q with
  | none =>
    cases rest with
    | nil => rfl
    | cons r rs =>
      have := hrest r rfl
      simp [optQ, dropOptQuote, this]
  | some c =>
    have := hq c rfl
    simp [optQ, dropOptQuote, this]

theorem dropOptQuote_split (l : List Char) :
    ∃ q : Option Char, QuoteOpt q ∧ l = optQ q ++ dropOptQuote l := by
  cases l with
  | nil => exact ⟨none, ⟨(fun c h => nomatch h), rfl⟩⟩
  | cons c cs =>
    by_cases h : isQuote c = true
    · refine ⟨some c, ⟨?_, ?_⟩⟩
      · intro c' h'
        cases h'
        exact h
      · simp [optQ, dropOptQuote, h]
    · simp only [Bool.not_eq_true] at h
      refine ⟨none, ⟨?_, ?_⟩⟩
      · intro c' h'
        cases h'
      · simp [optQ, dropOptQuote, h]



/-- C1: `_first_gradient_color` detects a direct self-reference and terminates
with no color, but it tracks no visited set: on a two-gradient href cycle with
no color-bearing stops the recursion exceeds every depth bound, i.e. it is
unbounded (a `RecursionError` in the source), contradicting the requirement
that a cycle terminate and be treated as unresolvable. -/
theorem C1_cycle_recursion_unbounded :
    (∀ fuel, firstGradientColorF cycById fuel cycA = none) ∧
    firstGradientColorF selfById 1 selfG = some none := by
  constructor
  · have key : ∀ fuel, firstGradientColorF cycById fuel cycA = none ∧
        firstGradientColorF cycById fuel cycB = none := by
      intro fuel
      induction fuel with
      | zero => exact ⟨rfl, rfl⟩
      | succ n ih =>
        refine ⟨?_, ?_⟩
        · have h : firstGradientColorF cycById (n + 1) cycA =
              firstGradientColorF cycById n cycB := rfl
          rw [h]; exact ih.2
        · have h : firstGradientColorF cycById (n + 1) cycB =
              firstGradientColorF cycById n cycA := rfl
          rw [h]; exact ih.1
    exact fun fuel => (key fuel).1
  · decide

/-- C8: when no linearGradient lies under any defs, the gradient loop has
nothing to do: the tree is returned unchanged (and `main` still writes both
outputs and exits 0 when parsing and rendering succeed). -/
theorem C8_no_gradients_unchanged (fuel : Nat) (root : Element)
    (h : gradientsOf root = []) :
    processTreeF fuel root = some root ∧
    mainModel fuel ⟨true, some root, true⟩ = ⟨0, true, true⟩ := by
  have hp : processTreeF fuel root = some root := by
    simp [processTreeF, h]
  refine ⟨hp, ?_⟩
  simp [mainModel, hp]

/-- C8 witness: a concrete document whose only fill reference sits outside any
defs-resident gradient. -/
theorem C8_witness :
    gradientsOf noGradDoc = [] ∧
    (processTreeF 3 noGradDoc = some noGradDoc ∧
      mainModel 3 ⟨true, some noGradDoc, true⟩ = ⟨0, true, true⟩) :=
  ⟨by decide, C8_no_gradients_unchanged 3 noGradDoc (by decide)⟩

/-- C7: exit codes of `main` over the abstracted environment: 2 when the input
file does not exist (no SVG or PDF written), 3 on an XML parse error (no
output written), 0 on success, and 1 on a rendering failure (the rewritten SVG
is already written, the PDF is not). -/
theorem C7_exit_codes (fuel : Nat) (env : MainEnv) :
    (env.inputExists = false → mainModel fuel env = ⟨2, false, false⟩) ∧
    (env.inputExists = true → env.parseResult = none →
      mainModel fuel env = ⟨3, false, false⟩) ∧
    (∀ tree out, env.inputExists = true → env.parseResult = some tree →
      processTreeF fuel tree = some out → env.renderOk = true →
      mainModel fuel env = ⟨0, true, true⟩) ∧
    (∀ tree out, env.inputExists = true → env.parseResult = some tree →
      processTreeF fuel tree = some out → env.renderOk = false →
      mainModel fuel env = ⟨1, true, false⟩) := by
  obtain ⟨ex, pr, ren⟩ := env
  refine ⟨?_, ?_, ?_, ?_⟩
  · intro h; simp_all [mainModel]
  · intro h1 h2; simp_all [mainModel]
  · intro tree out h1 h2 h3 h4; simp_all [mainModel]
  · intro tree out h1 h2 h3 h4; simp_all [mainModel]

/-- C7 witness: the missing-input case at a concrete environment, via the
theorem. -/
theorem C7_witness :
    mainModel 1 ⟨false, some noGradDoc, true⟩ = ⟨2, false, false⟩ :=
  (C7_exit_codes 1 ⟨false, some noGradDoc, true⟩).1 rfl

/-- C4: a gradient with no color-bearing stop whose href (any of the four
attribute spellings) starts with `#` and resolves through the id map to a
distinct gradient inherits that gradient's resolved color; chaining the lemma
gives the transitive case. -/
theorem C4_href_chain (byId : List (String × Element)) (g ref : Element)
    (h : String) (c : String)
    (hstops : firstStopColor g = none)
    (hhref : getHref g = some h)
    (hhash : h.data.head? = some hashC)
    (hlook : lookupE byId ⟨h.data.drop 1⟩ = some ref)
    (hne : ref ≠ g)
    (hres : ResolvesTo byId ref c) :
    ResolvesTo byId g c := by
  obtain ⟨n, hn⟩ := hres
  refine ⟨n + 1, ?_⟩
  rw [List.drop_one] at hlook
  simp [firstGradientColorF, hstops, hhref, hhash, hlook, hne, hn]

/-- C4 witness: a concrete two-link chain `wA → wB` where `wB` carries a direct
stop color; the hypotheses of the chain lemma are discharged by computation. -/
theorem C4_witness :
    firstStopColor wA = none ∧ (wB ≠ wA) ∧ ResolvesTo wById wA "red" :=
  ⟨by decide, by decide,
    C4_href_chain wById wA wB "#wb" "red" (by decide) (by decide) (by decide)
      (by decide) (by decide) ⟨1, by decide⟩⟩

theorem matchUrlRef_sound (s idc : List Char) (h : matchUrlRef s = some idc) :
    idc ≠ [] ∧ idc.all isIdChar = true ∧
    ∃ (w1 : List Char) (q1 q2 : Option Char) (w2 w3 : List Char),
      w1.all isWS = true ∧ w2.all isWS = true ∧ w3.all isWS = true ∧
      QuoteOpt q1 ∧ QuoteOpt q2 ∧
      s = 'u' :: 'r' :: 'l' :: '(' ::
        (w1 ++ (optQ q1 ++ hashC :: (idc ++ (optQ q2 ++ (w2 ++ rparC :: w3))))) := by
  rw [matchUrlRef] at h
  split at h
  case isFalse => exact absurd h (by simp)
  case isTrue htake =>
  set r0 := s.drop 4 with hr0
  have hs : s = 'u' :: 'r' :: 'l' :: '(' :: r0 := by
    conv_lhs => rw [← List.take_append_drop 4 s]
    rw [htake, ← hr0]
    rfl
  simp only [urlRefBody] at h
  set r1 := dropOptQuote (r0.dropWhile isWS) with hr1def
  split at h
  case isFalse => exact absurd h (by simp)
  case isTrue hhash =>
  split at h
  case isTrue => exact absurd h (by simp)
  case isFalse hne =>
  set u := dropOptQuote (r1.tail.dropWhile isIdChar) with hudef
  split at h
  case isFalse => exact absurd h (by simp)
  case isTrue hok =>
  have hidc : idc = r1.tail.takeWhile isIdChar := by
    have h' := h
    simp only [Option.some.injEq] at h'
    exact h'.symm
  obtain ⟨t1, hr1cons⟩ : ∃ t, r1 = hashC :: t := by
    cases hr : r1 with
    | nil => rw [hr] at hhash; exact absurd hhash (by simp)
    | cons c t =>
      rw [hr] at hhash
      simp only [List.head?_cons, Option.some.injEq] at hhash
      exact ⟨t, by rw [hhash]⟩
  have ht1 : r1.tail = t1 := by rw [hr1cons, List.tail_cons]
  set r3 := u.dropWhile isWS with hr3def
  obtain ⟨t3, hr3cons⟩ : ∃ t, r3 = rparC :: t := by
    cases hr : r3 with
    | nil => rw [hr] at hok; exact absurd hok.1 (by simp)
    | cons c t =>
      have hh := hok.1
      rw [hr] at hh
      simp only [List.head?_cons, Option.some.injEq] at hh
      exact ⟨t, by rw [hh]⟩
  have ht3 : r3.tail = t3 := by rw [hr3cons, List.tail_cons]
  rw [ht1] at hidc hudef hne
  obtain ⟨q1, hq1, hsplit1⟩ := dropOptQuote_split (r0.dropWhile isWS)
  rw [← hr1def] at hsplit1
  obtain ⟨q2, hq2, hsplit2⟩ := dropOptQuote_split (t1.dropWhile isIdChar)
  rw [← hudef] at hsplit2
  have hueq : u = u.takeWhile isWS ++ rparC :: t3 := by
    calc u = u.takeWhile isWS ++ u.dropWhile isWS :=
          (List.takeWhile_append_dropWhile _ _).symm
      _ = u.takeWhile isWS ++ rparC :: t3 := by rw [← hr3def, hr3cons]
  have ht1eq : t1 = idc ++ (optQ q2 ++ (u.takeWhile isWS ++ rparC :: t3)) := by
    calc t1 = t1.takeWhile isIdChar ++ t1.dropWhile isIdChar :=
          (List.takeWhile_append_dropWhile _ _).symm
      _ = idc ++ (optQ q2 ++ u) := by rw [← hidc, hsplit2]
      _ = idc ++ (optQ q2 ++ (u.takeWhile isWS ++ rparC :: t3)) := by
          conv_lhs => rw [hueq]
  have hr0eq : r0 = r0.takeWhile isWS ++ (optQ q1 ++ hashC ::
      (idc ++ (optQ q2 ++ (u.takeWhile isWS ++ rparC :: t3)))) := by
    calc r0 = r0.takeWhile isWS ++ r0.dropWhile isWS :=
          (List.takeWhile_append_dropWhile _ _).symm
      _ = r0.takeWhile isWS ++ (optQ q1 ++ r1) := by rw [← hsplit1]
      _ = r0.takeWhile isWS ++ (optQ q1 ++ hashC :: t1) := by rw [hr1cons]
      _ = r0.takeWhile isWS ++ (optQ q1 ++ hashC ::
            (idc ++ (optQ q2 ++ (u.takeWhile isWS ++ rparC :: t3)))) := by
          conv_lhs => rw [ht1eq]
  refine ⟨by rw [hidc]; exact hne, by rw [hidc]; exact List.all_takeWhile, ?_⟩
  refine ⟨r0.takeWhile isWS, q1, q2, u.takeWhile isWS, t3,
    List.all_takeWhile, List.all_takeWhile, by rw [← ht3]; exact hok.2, hq1, hq2, ?_⟩
  rw [hs]
  conv_lhs => rw [hr0eq]

theorem headNot_of_optQ_cons {q : Option Char} {c : Char} {rest : List Char}
    (hq : QuoteOpt q) (p : Char → Bool)
    (hquote : ∀ d, isQuote d = true → p d = false) (hc : p c = false) :
    ∀ d, (optQ q ++ c :: rest).head? = some d → p d = false := by
  intro d hd
  cases q with
  | none => simp [optQ] at hd; subst hd; exact hc
  | some qc =>
    simp [optQ] at hd
    subst hd
    exact hquote qc (hq qc rfl)

theorem matchUrlRef_complete (idc w1 w2 w3 : List Char) (q1 q2 : Option Char)
    (hidne : idc ≠ []) (hid : idc.all isIdChar = true)
    (hw1 : w1.all isWS = true) (hw2 : w2.all isWS = true) (hw3 : w3.all isWS = true)
    (hq1 : QuoteOpt q1) (hq2 : QuoteOpt q2) :
    matchUrlRef ('u' :: 'r' :: 'l' :: '(' ::
      (w1 ++ (optQ q1 ++ hashC :: (idc ++ (optQ q2 ++ (w2 ++ rparC :: w3)))))) = some idc := by
  have hhead1 : ∀ d, (optQ q1 ++ hashC :: (idc ++ (optQ q2 ++ (w2 ++ rparC :: w3)))).head? =
      some d → isWS d = false :=
    headNot_of_optQ_cons hq1 isWS (fun d hd => quote_not_ws hd) (by decide)
  have hws1 := takeDrop_append isWS w1
    (optQ q1 ++ hashC :: (idc ++ (optQ q2 ++ (w2 ++ rparC :: w3)))) hw1 hhead1
  have hq1d : dropOptQuote (optQ q1 ++ hashC :: (idc ++ (optQ q2 ++ (w2 ++ rparC :: w3)))) =
      hashC :: (idc ++ (optQ q2 ++ (w2 ++ rparC :: w3))) :=
    dropOptQuote_optQ q1 _ hq1 (by intro c hc; simp at hc; subst hc; decide)
  have hheadid : ∀ d, (optQ q2 ++ (w2 ++ rparC :: w3)).head? = some d →
      isIdChar d = false := by
    intro d hd
    cases q2 with
    | some qc =>
      simp [optQ] at hd
      subst hd
      exact quote_not_idChar (hq2 qc rfl)
    | none =>
      simp only [optQ, List.nil_append] at hd
      cases w2 with
      | nil => simp at hd; subst hd; decide
      | cons wc wrest =>
        simp at hd
        subst hd
        refine ws_not_idChar ?_
        have h' := hw2
        simp only [List.all_cons, Bool.and_eq_true] at h'
        exact h'.1
  have hid1 := takeDrop_append isIdChar idc (optQ q2 ++ (w2 ++ rparC :: w3)) hid hheadid
  have hq2d : dropOptQuote (optQ q2 ++ (w2 ++ rparC :: w3)) = w2 ++ rparC :: w3 := by
    refine dropOptQuote_optQ q2 _ hq2 ?_
    intro c hc
    cases w2 with
    | nil => simp at hc; subst hc; decide
    | cons wc wrest =>
      simp at hc
      subst hc
      refine ws_not_quote ?_
      have h' := hw2
      simp only [List.all_cons, Bool.and_eq_true] at h'
      exact h'.1
  have hws2 := takeDrop_append isWS w2 (rparC :: w3) hw2
    (by intro d hd; simp at hd; subst hd; decide)
  have h4 : List.take 4 ('u' :: 'r' :: 'l' :: '(' ::
      (w1 ++ (optQ q1 ++ hashC :: (idc ++ (optQ q2 ++ (w2 ++ rparC :: w3)))))) =
      ['u', 'r', 'l', '('] := rfl
  rw [matchUrlRef, if_pos h4]
  show urlRefBody
      (w1 ++ (optQ q1 ++ hashC :: (idc ++ (optQ q2 ++ (w2 ++ rparC :: w3))))) = some idc
  simp only [urlRefBody, hws1.2, hq1d, List.head?_cons, List.tail_cons,
    hid1.1, hid1.2, hq2d, hws2.2]
  simp [hidne, hw3]

/-- C2 counterexample: the value `url(#g')` carries a closing quote with no
opening quote; the claim's pattern (matching quotes) rejects it, but
`_is_fill_url_ref` accepts it, so the claimed equivalence fails at this
input. -/
theorem C2_counterexample :
    isFillUrlRef "url(#g')" "g" = true ∧ specFillUrlRefStrict "url(#g')" "g" = false :=
  ⟨by decide, by decide⟩

/-- C2 (amended): `_is_fill_url_ref` accepts a value for a gradient id exactly
when the trimmed value decomposes as `url(`, whitespace, an optional quote,
`#`, the id (non-empty, all id characters), an independently optional quote
(matching not required), whitespace, `)` and trailing whitespace. -/
theorem C2_fill_ref_characterisation (value gid : String) :
    isFillUrlRef value gid = true ↔ AmendedFillRef value gid := by
  constructor
  · intro hacc
    rw [isFillUrlRef] at hacc
    split at hacc
    case h_1 idc hm =>
      split at hacc
      case isFalse => exact absurd hacc (by simp)
      case isTrue hid =>
        subst hid
        obtain ⟨hne, hall, w1, q1, q2, w2, w3, h1, h2, h3, h4, h5, hs⟩ :=
          matchUrlRef_sound _ _ hm
        exact ⟨hne, hall, w1, q1, q2, w2, w3, h1, h2, h3, h4, h5, hs⟩
    case h_2 hm => exact absurd hacc (by simp)
  · intro ham
    obtain ⟨hne, hall, w1, q1, q2, w2, w3, h1, h2, h3, h4, h5, hs⟩ := ham
    rw [isFillUrlRef, hs, matchUrlRef_complete gid.data w1 w2 w3 q1 q2 hne hall h1 h2 h3 h4 h5]
    simp

/-- C2 witness: a concrete quoted, whitespace-laden value accepted through the
characterisation. -/
theorem C2_witness : isFillUrlRef " url( '#g1' ) " "g1" = true :=
  (C2_fill_ref_characterisation " url( '#g1' ) " "g1").mpr
    ⟨by decide, by decide, [' '], some squote, some squote, [' '], [],
      by decide, by decide, by decide,
      (fun c h => by cases h; decide), (fun c h => by cases h; decide), by decide⟩

theorem stopYield_eq_spec (e : Element) :
    stopYield e =
      (if ("stop".data).isSuffixOf e.tag.data then specStopYield e else none) := by
  unfold stopYield
  split
  case isFalse => rfl
  case isTrue hsuf =>
  unfold specStopYield specStopCandidate extractStopColor
  cases h1 : getAttr e "stop-color" with
  | some c =>
    by_cases hc : c = ""
    · subst hc
      simp only [if_pos rfl]
      unfold extractStopColorStyle specStyleEntry
      cases h2 : getAttr e "style" with
      | some st =>
        by_cases hst : st = ""
        · simp [hst]
        · simp only [if_neg hst]
          cases h3 : lookupA (parseStyle st) "stop-color" with
          | some v =>
            by_cases hv : v = ""
            · simp [hv]; decide
            · simp only [if_neg hv]
              by_cases hpv : pyStrip v = "" <;> simp [hpv]
          | none => simp
      | none => simp
    · simp only [if_neg hc]
  | none =>
    unfold extractStopColorStyle specStyleEntry
    cases h2 : getAttr e "style" with
    | some st =>
      by_cases hst : st = ""
      · simp [hst]
      · simp only [if_neg hst]
        cases h3 : lookupA (parseStyle st) "stop-color" with
        | some v =>
          by_cases hv : v = ""
          · simp [hv]; decide
          · simp only [if_neg hv]
        | none => simp
    | none => simp

/-- C5 counterexample: the code takes the color of the first child whose tag
merely ends with "stop" (here a `nonstop` element, red), while the scan the
claim describes (children whose tag is "stop") yields the true stop's blue. -/
theorem C5_counterexample :
    firstGradientColorF [] 1 c5G = some (some "red") ∧ specScanLocal c5G = some "blue" :=
  ⟨by decide, by decide⟩

/-- C5 (amended): the stop loop of `_first_gradient_color` returns exactly the
first non-empty whitespace-trimmed value over the children whose tag ends
with "stop", preferring a truthy direct `stop-color` attribute over the parsed
style entry; when that scan yields a color, the gradient resolves to it. -/
theorem C5_first_yielding_stop :
    (∀ g, firstStopColor g = specScanSuffix g) ∧
    (∀ byId fuel g c, specScanSuffix g = some c →
      firstGradientColorF byId (fuel + 1) g = some (some c)) := by
  have hfs : ∀ g, firstStopColor g = specScanSuffix g := by
    intro g
    unfold firstStopColor specScanSuffix
    congr 1
    funext e
    exact stopYield_eq_spec e
  refine ⟨hfs, ?_⟩
  intro byId fuel g c hscan
  rw [firstGradientColorF, hfs g, hscan]

/-- C5 witness: the amended scan agrees with the code on a concrete gradient
and drives its resolution. -/
theorem C5_witness :
    firstStopColor wB = specScanSuffix wB ∧
    (specScanSuffix wB = some "red" ∧
      firstGradientColorF wById 1 wB = some (some "red")) :=
  ⟨C5_first_yielding_stop.1 wB, by decide,
    C5_first_yielding_stop.2 wById 0 wB "red" (by decide)⟩

theorem dw_head {p : Char → Bool} {l : List Char} {c : Char}
    (h : (l.dropWhile p).head? = some c) : p c = false := by
  induction l with
  | nil => simp at h
  | cons x xs ih =>
    by_cases hx : p x = true
    · rw [List.dropWhile_cons_of_pos hx] at h
      exact ih h
    · rw [List.dropWhile_cons_of_neg hx] at h
      simp at h
      subst h
      simpa using hx

theorem dw_eq_self_of_length {p : Char → Bool} {l : List Char}
    (h : (l.dropWhile p).length = l.length) : l.dropWhile p = l := by
  have hsub := List.dropWhile_sublist (l := l) p
  exact hsub.eq_of_length h

theorem all_sub {p : Char → Bool} {l₁ l₂ : List Char}
    (hs : l₁.Sublist l₂) (h : l₂.all p = true) : l₁.all p = true := by
  simp only [List.all_eq_true] at h ⊢
  exact fun x hx => h x (hs.subset hx)

theorem stripL_sublist (l : List Char) : (stripL l).Sublist l := by
  unfold stripL
  have h1 : ((l.dropWhile isWS).reverse.dropWhile isWS).Sublist (l.dropWhile isWS).reverse :=
    List.dropWhile_sublist _
  have h2 : ((l.dropWhile isWS).reverse.dropWhile isWS).reverse.Sublist
      (l.dropWhile isWS).reverse.reverse := h1.reverse
  rw [List.reverse_reverse] at h2
  exact h2.trans (List.dropWhile_sublist _)

theorem stripL_all {p : Char → Bool} {l : List Char} (h : l.all p = true) :
    (stripL l).all p = true :=
  all_sub (stripL_sublist l) h

theorem stripL_head_not_ws {l : List Char} {c : Char}
    (h : (stripL l).head? = some c) : isWS c = false := by
  unfold stripL at h
  rw [List.head?_reverse] at h
  set X := (l.dropWhile isWS).reverse with hX
  have hne : X.dropWhile isWS ≠ [] := by
    intro hnil
    rw [hnil] at h
    simp at h
  have hsplit := List.takeWhile_append_dropWhile isWS X
  have hlast : (X.dropWhile isWS).getLast? = X.getLast? := by
    conv_rhs => rw [← hsplit]
    rw [List.getLast?_append]
    cases hg : (X.dropWhile isWS).getLast? with
    | none => exact absurd (List.getLast?_eq_none_iff.mp hg) hne
    | some d => simp
  rw [hlast, hX, List.getLast?_reverse] at h
  exact dw_head h

theorem stripL_last_not_ws {l : List Char} {c : Char}
    (h : (stripL l).getLast? = some c) : isWS c = false := by
  unfold stripL at h
  rw [List.getLast?_reverse] at h
  exact dw_head h

theorem stripL_eq_self_of {l : List Char}
    (hh : ∀ c, l.head? = some c → isWS c = false)
    (hl : ∀ c, l.getLast? = some c → isWS c = false) : stripL l = l := by
  have h1 : l.dropWhile isWS = l := by
    cases l with
    | nil => rfl
    | cons c t => exact List.dropWhile_cons_of_neg (by simp [hh c rfl])
  have h2 : l.reverse.dropWhile isWS = l.reverse := by
    cases hr : l.reverse with
    | nil => rfl
    | cons c t =>
      have : l.getLast? = some c := by
        rw [← List.head?_reverse, hr]
        rfl
      exact List.dropWhile_cons_of_neg (by simp [hl c this])
  unfold stripL
  rw [h1, h2, List.reverse_reverse]

theorem stripL_idem (l : List Char) : stripL (stripL l) = stripL l :=
  stripL_eq_self_of (fun c h => stripL_head_not_ws h) (fun c h => stripL_last_not_ws h)

theorem stripL_cons_ws {w : Char} {l : List Char} (hw : isWS w = true) :
    stripL (w :: l) = stripL l := by
  unfold stripL
  rw [List.dropWhile_cons_of_pos hw]

theorem stripInv_dropWhile {l : List Char} (h : stripL l = l) :
    l.dropWhile isWS = l := by
  have hlen1 : (stripL l).length ≤ ((l.dropWhile isWS).reverse.dropWhile isWS).length := by
    unfold stripL
    simp
  have hlen2 : ((l.dropWhile isWS).reverse.dropWhile isWS).length ≤
      (l.dropWhile isWS).length := by
    have := (List.dropWhile_sublist (l := (l.dropWhile isWS).reverse) isWS).length_le
    simpa using this
  have hlen3 : (l.dropWhile isWS).length ≤ l.length :=
    (List.dropWhile_sublist isWS).length_le
  rw [h] at hlen1
  exact dw_eq_self_of_length (Nat.le_antisymm hlen3 (hlen1.trans hlen2))

theorem stripInv_head {l : List Char} {c : Char} (h : stripL l = l)
    (hc : l.head? = some c) : isWS c = false := by
  rw [← h] at hc
  exact stripL_head_not_ws hc

theorem stripInv_last {l : List Char} {c : Char} (h : stripL l = l)
    (hc : l.getLast? = some c) : isWS c = false := by
  rw [← h] at hc
  exact stripL_last_not_ws hc

theorem splitSemi_ne_nil (l : List Char) : splitSemi l ≠ [] := by
  induction l with
  | nil => decide
  | cons c cs ih =>
    rw [splitSemi]
    split
    · simp
    · cases h : splitSemi cs with
      | nil => exact absurd h ih
      | cons p ps => simp

theorem splitSemi_no_semi (l : List Char) :
    ∀ ch ∈ splitSemi l, ch.all (fun c => !(c == semiC)) = true := by
  induction l with
  | nil => intro ch hch; simp [splitSemi] at hch; simp [hch]
  | cons c cs ih =>
    intro ch hch
    rw [splitSemi] at hch
    split at hch
    case isTrue hc =>
      rcases List.mem_cons.mp hch with h | h
      · simp [h]
      · exact ih ch h
    case isFalse hc =>
      cases hs : splitSemi cs with
      | nil => exact absurd hs (splitSemi_ne_nil cs)
      | cons p ps =>
        rw [hs] at hch
        rcases List.mem_cons.mp hch with h | h
        · subst h
          have hp : p.all (fun c => !(c == semiC)) = true := ih p (by rw [hs]; simp)
          simp only [List.all_cons, Bool.and_eq_true]
          exact ⟨by simpa using hc, hp⟩
        · exact ih ch (by rw [hs]; simp [h])

theorem splitFirstColon_eq {l a b : List Char} (h : splitFirstColon l = some (a, b)) :
    l = a ++ colonC :: b ∧ a.all (fun c => !(c == colonC)) = true := by
  induction l generalizing a b with
  | nil => simp [splitFirstColon] at h
  | cons c cs ih =>
    rw [splitFirstColon] at h
    split at h
    case isTrue hc =>
      simp only [Option.some.injEq, Prod.mk.injEq] at h
      obtain ⟨ha, hb⟩ := h
      subst ha
      subst hb
      subst hc
      simp
    case isFalse hc =>
      cases hs : splitFirstColon cs with
      | none => rw [hs] at h; simp at h
      | some q =>
        rw [hs] at h
        simp only [Option.map_some', Option.some.injEq, Prod.mk.injEq] at h
        obtain ⟨ha, hb⟩ := h
        obtain ⟨hq1, hq2⟩ := ih (a := q.1) (b := q.2) (by rw [hs])
        subst hb
        rw [← ha]
        constructor
        · rw [List.cons_append, ← hq1]
        · simp only [List.all_cons, Bool.and_eq_true]
          exact ⟨by simpa using hc, hq2⟩

theorem splitFirstColon_append {a : List Char} (b : List Char)
    (ha : a.all (fun c => !(c == colonC)) = true) :
    splitFirstColon (a ++ colonC :: b) = some (a, b) := by
  induction a with
  | nil => simp [splitFirstColon]
  | cons c cs ih =>
    simp only [List.all_cons, Bool.and_eq_true] at ha
    have hc : ¬(c = colonC) := by simpa using ha.1
    rw [List.cons_append, splitFirstColon, if_neg hc, ih ha.2]
    rfl

theorem lookupA_dictInsert_self (m : List (String × String)) (k v : String) :
    lookupA (dictInsert m k v) k = some v := by
  induction m with
  | nil => simp [dictInsert, lookupA]
  | cons p rest ih =>
    rw [dictInsert]
    by_cases h : p.1 = k
    · simp [lookupA, h]
    · rw [if_neg h, lookupA, if_neg h]
      exact ih

theorem lookupA_dictInsert_ne (m : List (String × String)) (k v k' : String)
    (h : k' ≠ k) : lookupA (dictInsert m k v) k' = lookupA m k' := by
  induction m with
  | nil =>
    rw [dictInsert, lookupA, lookupA, if_neg (fun hh => h hh.symm)]
    rfl
  | cons p rest ih =>
    obtain ⟨p1, p2⟩ := p
    rw [dictInsert]
    by_cases hp : p1 = k
    · have hne : ¬(p1 = k') := by rw [hp]; exact fun hh => h hh.symm
      rw [if_pos hp, lookupA, if_neg hne, lookupA, if_neg hne]
    · rw [if_neg hp, lookupA, lookupA]
      by_cases hp' : p1 = k'
      · rw [if_pos hp', if_pos hp']
      · rw [if_neg hp', if_neg hp']
        exact ih

theorem lookupA_none_iff (m : List (String × String)) (k : String) :
    lookupA m k = none ↔ k ∉ m.map Prod.fst := by
  induction m with
  | nil => simp [lookupA]
  | cons p rest ih =>
    rw [lookupA]
    by_cases hp : p.1 = k
    · simp [hp]
    · rw [if_neg hp]
      simp only [List.map_cons, List.mem_cons]
      rw [ih]
      constructor
      · intro h hh
        rcases hh with hh | hh
        · exact hp hh.symm
        · exact h hh
      · intro h
        exact fun hh => h (Or.inr hh)

theorem mem_dictInsert {m : List (String × String)} {k v : String} {p : String × String}
    (h : p ∈ dictInsert m k v) : p ∈ m ∨ p = (k, v) := by
  induction m with
  | nil => simp [dictInsert] at h; simp [h]
  | cons q rest ih =>
    rw [dictInsert] at h
    split at h
    case isTrue hq =>
      rcases List.mem_cons.mp h with h | h
      · right; rw [h, hq]
      · left; simp [h]
    case isFalse hq =>
      rcases List.mem_cons.mp h with h | h
      · left; simp [h]
      · rcases ih h with h' | h'
        · left; simp [h']
        · right; exact h'

theorem map_fst_dictInsert (m : List (String × String)) (k v : String) :
    (dictInsert m k v).map Prod.fst =
      if k ∈ m.map Prod.fst then m.map Prod.fst else m.map Prod.fst ++ [k] := by
  induction m with
  | nil => simp [dictInsert]
  | cons p rest ih =>
    obtain ⟨p1, p2⟩ := p
    rw [dictInsert]
    by_cases hp : p1 = k
    · simp [hp]
    · rw [if_neg hp]
      simp only [List.map_cons, ih]
      by_cases hk : k ∈ rest.map Prod.fst
      · rw [if_pos hk, if_pos (by simp [hk])]
      · have hnot : k ∉ (p1, p2).1 :: rest.map Prod.fst := by
          simp only [List.mem_cons]
          rintro (hh | hh)
          · exact hp hh.symm
          · exact hk hh
        rw [if_neg hk, if_neg hnot, List.cons_append]

theorem styleChunk_WF {m : List (String × String)} {ch : List Char}
    (hm : StyleWF m) (hch : ch.all (fun c => !(c == semiC)) = true) :
    StyleWF (styleChunk m ch) := by
  rw [styleChunk]
  split
  · exact hm
  case isFalse hne =>
  cases hs : splitFirstColon (stripL ch) with
  | none => exact hm
  | some kv =>
    obtain ⟨heq, hcf⟩ := splitFirstColon_eq hs
    have hsf : (stripL ch).all (fun c => !(c == semiC)) = true := stripL_all hch
    have hasub : kv.1.Sublist (stripL ch) := by
      rw [heq]; exact List.sublist_append_left _ _
    have hbsub : kv.2.Sublist (stripL ch) := by
      rw [heq]
      exact (List.sublist_cons_self _ _).trans (List.sublist_append_right _ _)
    constructor
    · intro p hp
      rcases mem_dictInsert hp with hp' | hp'
      · exact hm.1 p hp'
      · subst hp'
        refine ⟨⟨stripL_idem _, stripL_all (all_sub hasub hsf), all_sub (stripL_sublist _) hcf⟩,
          stripL_idem _, stripL_all (all_sub hbsub hsf)⟩
    · rw [map_fst_dictInsert]
      split
      · exact hm.2
      case isFalse hnk =>
        simp only [List.nodup_append, List.nodup_cons]
        exact ⟨hm.2, by simp, by simpa using hnk⟩

theorem foldl_styleChunk_WF (chunks : List (List Char)) (m : List (String × String))
    (hm : StyleWF m) (hch : ∀ ch ∈ chunks, ch.all (fun c => !(c == semiC)) = true) :
    StyleWF (chunks.foldl styleChunk m) := by
  induction chunks generalizing m with
  | nil => exact hm
  | cons ch rest ih =>
    rw [List.foldl_cons]
    exact ih _ (styleChunk_WF hm (hch ch (by simp))) (fun c hc => hch c (by simp [hc]))

theorem parseStyle_WF (s : String) : StyleWF (parseStyle s) := by
  rw [parseStyle]
  exact foldl_styleChunk_WF _ _ ⟨by simp, by simp⟩ (splitSemi_no_semi s.data)

theorem splitSemi_append_semi {x : List Char}
    (hx : x.all (fun c => !(c == semiC)) = true) (rest : List Char) :
    splitSemi (x ++ semiC :: rest) = x :: splitSemi rest := by
  induction x with
  | nil => simp [splitSemi]
  | cons c cs ih =>
    simp only [List.all_cons, Bool.and_eq_true] at hx
    have hc : ¬(c = semiC) := by simpa using hx.1
    rw [List.cons_append, splitSemi, if_neg hc, ih hx.2]

theorem splitSemi_cons_of_ne {c : Char} (hc : ¬(c = semiC)) (l : List Char) :
    ∀ p ps, splitSemi l = p :: ps → splitSemi (c :: l) = (c :: p) :: ps := by
  intro p ps hl
  rw [splitSemi, if_neg hc, hl]

theorem splitSemi_joinSS (s : List Char) (rest : List (List Char))
    (h : ∀ x ∈ s :: rest, x.all (fun c => !(c == semiC)) = true) :
    splitSemi (joinSS (s :: rest) ++ [semiC]) =
      (s :: rest.map (fun t => ' ' :: t)) ++ [[]] := by
  induction rest generalizing s with
  | nil =>
    rw [joinSS, splitSemi_append_semi (h s (by simp))]
    rfl
  | cons t ts ih =>
    rw [joinSS]
    have hs : s.all (fun c => !(c == semiC)) = true := h s (by simp)
    have hrec := ih t (fun x hx => h x (by
      rcases List.mem_cons.mp hx with hx | hx
      · simp [hx]
      · simp [hx]))
    have hassoc : (s ++ semiC :: ' ' :: joinSS (t :: ts)) ++ [semiC] =
        s ++ semiC :: (' ' :: (joinSS (t :: ts) ++ [semiC])) := by
      simp
    rw [hassoc, splitSemi_append_semi hs]
    have hshape : splitSemi (joinSS (t :: ts) ++ [semiC]) =
        t :: (ts.map (fun x => ' ' :: x) ++ [[]]) := by
      rw [hrec]
      simp
    rw [splitSemi_cons_of_ne (by decide) _ t (ts.map (fun x => ' ' :: x) ++ [[]]) hshape]
    simp

theorem data_ne_nil_of_ne {s : String} (h : s ≠ "") : s.data ≠ [] := by
  intro hh
  apply h
  have he : s = ⟨s.data⟩ := rfl
  rw [he, hh]

theorem entryRender_strip {k v : String} (hk : keyWF k) (hv : valWF v)
    (hkne : k ≠ "") (hvne : v ≠ "") :
    stripL (entryRender (k, v)) = entryRender (k, v) := by
  have hkd : k.data ≠ [] := data_ne_nil_of_ne hkne
  have hvd : v.data ≠ [] := data_ne_nil_of_ne hvne
  refine stripL_eq_self_of ?_ ?_
  · intro c hc
    rw [entryRender] at hc
    cases hkdd : k.data with
    | nil => exact absurd hkdd hkd
    | cons c0 t0 =>
      rw [hkdd] at hc
      simp only [List.cons_append, List.head?_cons, Option.some.injEq] at hc
      subst hc
      exact stripInv_head hk.1 (by rw [hkdd]; rfl)
  · intro c hc
    obtain ⟨d, hg⟩ : ∃ d, v.data.getLast? = some d := by
      cases hg : v.data.getLast? with
      | none => exact absurd (List.getLast?_eq_none_iff.mp hg) hvd
      | some d => exact ⟨d, rfl⟩
    have hl : (entryRender (k, v)).getLast? = some d := by
      rw [entryRender, List.getLast?_append]
      have h2 : colonC :: ' ' :: v.data = [colonC, ' '] ++ v.data := rfl
      rw [h2, List.getLast?_append, hg]
      rfl
    rw [hl] at hc
    simp only [Option.some.injEq] at hc
    subst hc
    exact stripInv_last hv.1 hg

theorem string_eta (s : String) : (⟨s.data⟩ : String) = s := rfl

theorem entryRender_ne_nil (k v : String) : entryRender (k, v) ≠ [] := by
  rw [entryRender]
  intro hh
  exact absurd (List.append_eq_nil.mp hh).2 (by simp)

theorem styleChunk_entry (m : List (String × String)) {k v : String}
    (hk : keyWF k) (hv : valWF v) (hkne : k ≠ "") (hvne : v ≠ "") :
    styleChunk m (entryRender (k, v)) = dictInsert m k v ∧
    styleChunk m (' ' :: entryRender (k, v)) = dictInsert m k v := by
  have hstrip := entryRender_strip hk hv hkne hvne
  have hsplit : splitFirstColon (entryRender (k, v)) = some (k.data, ' ' :: v.data) := by
    rw [entryRender]
    exact splitFirstColon_append _ hk.2.2
  have hval : stripL (' ' :: v.data) = v.data := by
    rw [stripL_cons_ws (by decide), hv.1]
  have hmain : styleChunk m (entryRender (k, v)) = dictInsert m k v := by
    rw [styleChunk]
    simp only [hstrip, hsplit]
    rw [if_neg (entryRender_ne_nil k v)]
    rw [hk.1, hval, string_eta, string_eta]
  refine ⟨hmain, ?_⟩
  rw [styleChunk]
  simp only [stripL_cons_ws (show isWS ' ' = true by decide), hstrip, hsplit]
  rw [if_neg (entryRender_ne_nil k v)]
  rw [hk.1, hv.1, string_eta, string_eta]

theorem foldl_padded (entries : List (String × String))
    (hwf : ∀ p ∈ entries, (keyWF p.1 ∧ valWF p.2) ∧ p.1 ≠ "" ∧ p.2 ≠ "") :
    ∀ m, (entries.map (fun p => ' ' :: entryRender p) ++ [[]]).foldl styleChunk m =
      entries.foldl (fun acc p => dictInsert acc p.1 p.2) m := by
  induction entries with
  | nil => intro m; rfl
  | cons p rest ih =>
    intro m
    obtain ⟨k, v⟩ := p
    have hp := hwf (k, v) (by simp)
    simp only [List.map_cons, List.cons_append, List.foldl_cons]
    rw [(styleChunk_entry m hp.1.1 hp.1.2 hp.2.1 hp.2.2).2]
    exact ih (fun q hq => hwf q (by simp [hq])) _

theorem foldl_dictInsert_fresh (entries : List (String × String)) :
    ∀ m, (entries.map Prod.fst).Nodup →
    (∀ k ∈ entries.map Prod.fst, k ∉ m.map Prod.fst) →
    entries.foldl (fun acc p => dictInsert acc p.1 p.2) m = m ++ entries := by
  induction entries with
  | nil => intro m _ _; simp
  | cons p rest ih =>
    intro m hnd hdisj
    obtain ⟨k, v⟩ := p
    simp only [List.map_cons, List.nodup_cons] at hnd
    have hkm : k ∉ m.map Prod.fst := hdisj k (by simp)
    have hins : dictInsert m k v = m ++ [(k, v)] := by
      have hnone : lookupA m k = none := (lookupA_none_iff m k).mpr hkm
      clear hkm hnd hdisj ih
      induction m with
      | nil => rfl
      | cons q qs ihq =>
        obtain ⟨q1, q2⟩ := q
        rw [lookupA] at hnone
        by_cases hq : q1 = k
        · rw [if_pos hq] at hnone; exact absurd hnone (by simp)
        · rw [if_neg hq] at hnone
          rw [dictInsert, if_neg hq, ihq hnone, List.cons_append]
    rw [List.foldl_cons, hins, ih (m ++ [(k, v)]) hnd.2 ?_, List.append_assoc]
    · rfl
    · intro k' hk'
      simp only [List.map_append, List.mem_append] at *
      rintro (hh | hh)
      · exact hdisj k' (by simp [hk']) hh
      · simp at hh
        exact hnd.1 (by rw [hh] at hk'; exact hk')

theorem lookupA_filter_none {rest : List (String × String)} {k : String}
    (h : k ∉ rest.map Prod.fst) :
    lookupA (rest.filter (fun p => !(p.1 == "") && !(p.2 == ""))) k = none := by
  refine (lookupA_none_iff _ _).mpr ?_
  intro hmem
  apply h
  obtain ⟨q, hq, hqe⟩ := List.mem_map.mp hmem
  exact List.mem_map.mpr ⟨q, List.mem_of_mem_filter hq, hqe⟩

theorem lookupA_filter_pred (m : List (String × String))
    (hnd : (m.map Prod.fst).Nodup) (k : String) :
    lookupA (m.filter (fun p => !(p.1 == "") && !(p.2 == ""))) k =
      match lookupA m k with
      | some v => if k = "" ∨ v = "" then none else some v
      | none => none := by
  induction m with
  | nil => simp [lookupA]
  | cons p rest ih =>
    obtain ⟨p1, p2⟩ := p
    simp only [List.map_cons, List.nodup_cons] at hnd
    rw [List.filter_cons, lookupA]
    by_cases hp : p1 = k
    · subst hp
      rw [if_pos rfl]
      by_cases h1 : p1 = ""
      · rw [if_neg (by simp [h1])]
        rw [lookupA_filter_none hnd.1]
        simp [h1]
      · by_cases h2 : p2 = ""
        · rw [if_neg (by simp [h2])]
          rw [lookupA_filter_none hnd.1]
          simp [h2]
        · rw [if_pos (by simp [h1, h2]), lookupA, if_pos rfl]
          simp [h1, h2]
    · rw [if_neg hp]
      by_cases hkeep : (!(p1 == "") && !(p2 == "")) = true
      · rw [if_pos hkeep, lookupA, if_neg hp]
        exact ih hnd.2
      · rw [if_neg (by simpa using hkeep)]
        exact ih hnd.2

theorem parseStyle_formatStyle (m : List (String × String)) (hm : StyleWF m) :
    parseStyle (formatStyle m) =
      m.filter (fun p => !(p.1 == "") && !(p.2 == "")) := by
  have hfsub : (m.filter (fun p => !(p.1 == "") && !(p.2 == ""))).Sublist m :=
    List.filter_sublist m
  have hfwf : ∀ p ∈ m.filter (fun p => !(p.1 == "") && !(p.2 == "")),
      (keyWF p.1 ∧ valWF p.2) ∧ p.1 ≠ "" ∧ p.2 ≠ "" := by
    intro p hp
    have hmem := List.mem_of_mem_filter hp
    have hpred := List.of_mem_filter hp
    simp only [Bool.and_eq_true, Bool.not_eq_true', beq_eq_false_iff_ne] at hpred
    exact ⟨hm.1 p hmem, hpred⟩
  have hfnd : ((m.filter (fun p => !(p.1 == "") && !(p.2 == ""))).map Prod.fst).Nodup :=
    hm.2.sublist (hfsub.map _)
  rw [parseStyle, formatStyle]
  by_cases hmnil : m = []
  · subst hmnil
    rfl
  · rw [if_neg hmnil]
    cases hflt : m.filter (fun p => !(p.1 == "") && !(p.2 == "")) with
    | nil => rfl
    | cons e rest =>
      simp only [List.map_cons]
      have hall : ∀ x ∈ entryRender e :: (rest.map entryRender),
          x.all (fun c => !(c == semiC)) = true := by
        intro x hx
        rcases List.mem_cons.mp hx with hx | hx
        · subst hx
          obtain ⟨⟨hk, hv⟩, hne⟩ := hfwf e (by rw [hflt]; simp)
          rw [entryRender]
          simp only [List.all_append, List.all_cons, Bool.and_eq_true]
          exact ⟨hk.2.1, by decide, by decide, hv.2⟩
        · obtain ⟨p, hpmem, hpe⟩ := List.mem_map.mp hx
          obtain ⟨⟨hk, hv⟩, hne⟩ := hfwf p (by rw [hflt]; simp [hpmem])
          subst hpe
          rw [entryRender]
          simp only [List.all_append, List.all_cons, Bool.and_eq_true]
          exact ⟨hk.2.1, by decide, by decide, hv.2⟩
      have hjs := splitSemi_joinSS (entryRender e) (rest.map entryRender) hall
      rw [hjs]
      have hwfe := hfwf e (by rw [hflt]; simp)
      obtain ⟨ke, ve⟩ := e
      have hrestwf : ∀ p ∈ rest, (keyWF p.1 ∧ valWF p.2) ∧ p.1 ≠ "" ∧ p.2 ≠ "" :=
        fun p hp => hfwf p (by rw [hflt]; simp [hp])
      have hstep : ((entryRender (ke, ve) :: (rest.map entryRender).map (fun t => ' ' :: t))
            ++ [[]]).foldl styleChunk [] =
          ((ke, ve) :: rest).foldl (fun acc p => dictInsert acc p.1 p.2) [] := by
        simp only [List.cons_append, List.foldl_cons]
        rw [(styleChunk_entry [] hwfe.1.1 hwfe.1.2 hwfe.2.1 hwfe.2.2).1]
        rw [List.map_map]
        exact foldl_padded rest hrestwf _
      rw [hstep]
      rw [foldl_dictInsert_fresh _ _ (by rw [← hflt]; exact hfnd) (by simp)]
      simp

theorem map_replace_id {rest : List (String × String)} {k : String} (v : String)
    (h : k ∉ rest.map Prod.fst) :
    rest.map (fun p => if p.1 = k then (k, v) else p) = rest := by
  induction rest with
  | nil => rfl
  | cons q qs ih =>
    simp only [List.map_cons, List.mem_cons, not_or] at h ⊢
    rw [if_neg (fun hh => h.1 hh.symm), ih h.2]

theorem dictInsert_eq_map {m : List (String × String)} {k : String} (v : String)
    (hnd : (m.map Prod.fst).Nodup) (hmem : k ∈ m.map Prod.fst) :
    dictInsert m k v = m.map (fun p => if p.1 = k then (k, v) else p) := by
  induction m with
  | nil => simp at hmem
  | cons q qs ih =>
    obtain ⟨q1, q2⟩ := q
    simp only [List.map_cons, List.nodup_cons] at hnd
    rw [dictInsert, List.map_cons]
    by_cases hq : q1 = k
    · rw [if_pos hq, if_pos hq]
      subst hq
      rw [map_replace_id v hnd.1]
    · rw [if_neg hq, if_neg hq]
      have hmem' : k ∈ qs.map Prod.fst := by
        rcases List.mem_cons.mp hmem with h | h
        · exact absurd h.symm hq
        · exact h
      rw [ih hnd.2 hmem']

theorem StyleWF_dictInsert {m : List (String × String)} {k v : String}
    (hm : StyleWF m) (hk : keyWF k) (hv : valWF v) : StyleWF (dictInsert m k v) := by
  constructor
  · intro p hp
    rcases mem_dictInsert hp with hp' | hp'
    · exact hm.1 p hp'
    · subst hp'
      exact ⟨hk, hv⟩
  · rw [map_fst_dictInsert]
    split
    · exact hm.2
    case isFalse hnk =>
      simp only [List.nodup_append, List.nodup_cons]
      exact ⟨hm.2, by simp, by simpa using hnk⟩

theorem isFillUrlRef_empty (gid : String) : isFillUrlRef "" gid = false := rfl

theorem styleChunk_chunkKV (m : List (String × String)) (ch : List Char) :
    styleChunk m ch =
      match chunkKV ch with
      | some kv => dictInsert m kv.1 kv.2
      | none => m := by
  rw [styleChunk, chunkKV]
  split
  · rfl
  · cases splitFirstColon (stripL ch) with
    | none => rfl
    | some kv => rfl

theorem lookupA_foldl_styleChunk (chunks : List (List Char)) :
    ∀ m k, lookupA (chunks.foldl styleChunk m) k =
      (lastChunkVal k chunks).or (lookupA m k) := by
  induction chunks with
  | nil =>
    intro m k
    simp [lastChunkVal]
  | cons ch rest ih =>
    intro m k
    rw [List.foldl_cons, ih]
    have hlast : lastChunkVal k (ch :: rest) =
        (lastChunkVal k rest).or
          (match chunkKV ch with
           | some kv => if kv.1 = k then some kv.2 else none
           | none => none) := by
      rw [lastChunkVal, lastChunkVal, List.reverse_cons, List.findSome?_append]
      congr 1
      cases hck : chunkKV ch with
      | none => simp [List.findSome?_cons, hck]
      | some kv =>
        by_cases hk : kv.1 = k <;> simp [List.findSome?_cons, hck, hk]
    rw [hlast]
    have hsc : lookupA (styleChunk m ch) k =
        (match chunkKV ch with
         | some kv => if kv.1 = k then some kv.2 else none
         | none => none).or (lookupA m k) := by
      rw [styleChunk_chunkKV]
      cases hck : chunkKV ch with
      | none => rfl
      | some kv =>
        obtain ⟨k1, v1⟩ := kv
        dsimp only
        by_cases hk : k1 = k
        · subst hk
          rw [lookupA_dictInsert_self]
          simp
        · rw [lookupA_dictInsert_ne _ _ _ _ (fun hh => hk hh.symm)]
          simp [hk]
    rw [hsc, Option.or_assoc]

theorem lookupA_parseStyle_last (s : String) (k : String) :
    lookupA (parseStyle s) k = lastChunkVal k (splitSemi s.data) := by
  rw [parseStyle, lookupA_foldl_styleChunk]
  simp [lookupA]

theorem parseStyle_of_empty : parseStyle "" = [] := rfl

/-- C3 counterexample: the input style carries the declaration `x:` (empty
value); after the rewrite the serialized style drops it, so not every other
declaration of the style string is preserved. -/
theorem C3_counterexample :
    rewriteAttrs "g3" "red" c3E.attrs = [("style", "fill: red;")] ∧
    lookupA (parseStyle "fill:url(#g3);x:") "x" = some "" ∧
    lookupA (parseStyle "fill: red;") "x" = none :=
  ⟨by decide, by decide, by decide⟩

/-- C3 (amended): when an element's parsed style has a `fill` entry that is a
url reference to the gradient id, the rewriter stores the re-serialized style
of the dict with `fill` replaced by the color, in insertion order: the updated
dict is the entrywise replacement of the `fill` value (all other entries and
their order untouched); every other declaration with non-empty property and
value survives re-serialization with its value intact (empty ones are
dropped); the serialized string ends with a semicolon; and parsing keeps the
last occurrence of a duplicate property.  The color is assumed to be a plain
token (non-empty, trimmed, semicolon-free), which every real color value is. -/
theorem C3_style_rewrite (gid c s f : String) (e : Element)
    (hc : valWF c) (hcne : c ≠ "")
    (hstyle : getAttr e "style" = some s)
    (hfill : lookupA (parseStyle s) "fill" = some f)
    (hmatch : isFillUrlRef f gid = true) :
    lookupA (rewriteAttrs gid c e.attrs) "style" =
      some (formatStyle (dictInsert (parseStyle s) "fill" c)) ∧
    dictInsert (parseStyle s) "fill" c =
      (parseStyle s).map (fun p => if p.1 = "fill" then ("fill", c) else p) ∧
    (∀ k', k' ≠ "fill" →
      lookupA (dictInsert (parseStyle s) "fill" c) k' = lookupA (parseStyle s) k') ∧
    (∀ k', k' ≠ "fill" →
      lookupA (parseStyle (formatStyle (dictInsert (parseStyle s) "fill" c))) k' =
        match lookupA (parseStyle s) k' with
        | some v => if k' = "" ∨ v = "" then none else some v
        | none => none) ∧
    (∃ l, (formatStyle (dictInsert (parseStyle s) "fill" c)).data = l ++ [semiC]) ∧
    (∀ k, lookupA (parseStyle s) k = lastChunkVal k (splitSemi s.data)) := by
  have hswf := parseStyle_WF s
  have hsne : s ≠ "" := by
    intro hh
    rw [hh, parseStyle_of_empty] at hfill
    exact absurd hfill (by simp [lookupA])
  have hfne : f ≠ "" := by
    intro hh
    rw [hh, isFillUrlRef_empty] at hmatch
    exact absurd hmatch (by simp)
  have hmem : "fill" ∈ (parseStyle s).map Prod.fst := by
    by_contra hnot
    rw [(lookupA_none_iff _ _).mpr hnot] at hfill
    exact absurd hfill (by simp)
  have hwf' : StyleWF (dictInsert (parseStyle s) "fill" c) :=
    StyleWF_dictInsert hswf (by refine ⟨rfl, ?_, ?_⟩ <;> decide) hc
  refine ⟨?_, dictInsert_eq_map c hswf.2 hmem,
    fun k' hk' => lookupA_dictInsert_ne _ _ _ _ hk', ?_, ?_,
    fun k => lookupA_parseStyle_last s k⟩
  · rw [rewriteAttrs]
    have hstylea1 :
        lookupA (match lookupA e.attrs "fill" with
          | some fv => if fv ≠ "" ∧ isFillUrlRef fv gid then dictInsert e.attrs "fill" c
              else e.attrs
          | none => e.attrs) "style" = some s := by
      cases hf : lookupA e.attrs "fill" with
      | none => exact hstyle
      | some fv =>
        dsimp only
        by_cases hcond : fv ≠ "" ∧ isFillUrlRef fv gid = true
        · rw [if_pos hcond, lookupA_dictInsert_ne _ _ _ _ (by decide)]
          exact hstyle
        · rw [if_neg hcond]
          exact hstyle
    simp only [hstylea1, hfill]
    rw [if_neg hsne,
      if_pos (show f ≠ "" ∧ isFillUrlRef f gid = true from ⟨hfne, hmatch⟩),
      lookupA_dictInsert_self]
  · intro k' hk'
    rw [parseStyle_formatStyle _ hwf']
    rw [lookupA_filter_pred _ hwf'.2]
    rw [lookupA_dictInsert_ne _ _ _ _ hk']
  · rw [formatStyle]
    have hnn : ¬(dictInsert (parseStyle s) "fill" c = []) := by
      cases hps : parseStyle s with
      | nil => rw [hps] at hmem; simp at hmem
      | cons q qs =>
        obtain ⟨q1, q2⟩ := q
        rw [dictInsert]
        by_cases hq : q1 = "fill" <;> simp [hq]
    rw [if_neg hnn]
    exact ⟨_, rfl⟩

/-- C3 witness: on a concrete element with a `stroke` declaration, the style
is rewritten to `fill: red; stroke: blue;`. -/
theorem C3_witness :
    lookupA (rewriteAttrs "g9" "red" c3W.attrs) "style" = some "fill: red; stroke: blue;" := by
  have h := C3_style_rewrite "g9" "red" "fill:url(#g9); stroke: blue" "url(#g9)" c3W
    (by refine ⟨?_, ?_⟩ <;> decide) (by decide) (by decide) (by decide) (by decide)
  rw [h.1]
  decide

theorem lookupA_isSome_mem {m : List (String × String)} {k v : String}
    (h : lookupA m k = some v) : k ∈ m.map Prod.fst := by
  by_contra hn
  rw [(lookupA_none_iff m k).mpr hn] at h
  exact absurd h (by simp)

theorem rewriteAttrs_decomp (gid c : String) (a : List (String × String)) :
    ∃ b, ((b = a ∨ ∃ v, lookupA a "fill" = some v ∧ b = dictInsert a "fill" c) ∧
      (rewriteAttrs gid c a = b ∨
        ∃ st w, lookupA b "style" = some st ∧
          rewriteAttrs gid c a = dictInsert b "style" w)) := by
  rw [rewriteAttrs]
  cases hf : lookupA a "fill" with
  | none =>
    refine ⟨a, Or.inl rfl, ?_⟩
    dsimp only
    cases hs : lookupA a "style" with
    | none => exact Or.inl rfl
    | some st =>
      dsimp only
      split
      · exact Or.inl rfl
      · cases lookupA (parseStyle st) "fill" with
        | none => exact Or.inl rfl
        | some sf =>
          dsimp only
          split
          · exact Or.inr ⟨st, _, rfl, rfl⟩
          · exact Or.inl rfl
  | some f =>
    dsimp only
    by_cases hcond : f ≠ "" ∧ isFillUrlRef f gid = true
    · rw [if_pos hcond]
      refine ⟨dictInsert a "fill" c, Or.inr ⟨f, rfl, rfl⟩, ?_⟩
      cases hs : lookupA (dictInsert a "fill" c) "style" with
      | none => exact Or.inl rfl
      | some st =>
        dsimp only
        split
        · exact Or.inl rfl
        · cases lookupA (parseStyle st) "fill" with
          | none => exact Or.inl rfl
          | some sf =>
            dsimp only
            split
            · exact Or.inr ⟨st, _, rfl, rfl⟩
            · exact Or.inl rfl
    · rw [if_neg hcond]
      refine ⟨a, Or.inl rfl, ?_⟩
      cases hs : lookupA a "style" with
      | none => exact Or.inl rfl
      | some st =>
        dsimp only
        split
        · exact Or.inl rfl
        · cases lookupA (parseStyle st) "fill" with
          | none => exact Or.inl rfl
          | some sf =>
            dsimp only
            split
            · exact Or.inr ⟨st, _, rfl, rfl⟩
            · exact Or.inl rfl

theorem rewriteAttrs_keys (gid c : String) (a : List (String × String)) :
    (rewriteAttrs gid c a).map Prod.fst = a.map Prod.fst := by
  obtain ⟨b, hb, hr⟩ := rewriteAttrs_decomp gid c a
  have hbk : b.map Prod.fst = a.map Prod.fst := by
    rcases hb with hb | ⟨v, hv, hb⟩
    · rw [hb]
    · rw [hb, map_fst_dictInsert, if_pos (lookupA_isSome_mem hv)]
  rcases hr with hr | ⟨st, w, hst, hr⟩
  · rw [hr, hbk]
  · rw [hr, map_fst_dictInsert, if_pos (lookupA_isSome_mem hst), hbk]

theorem rewriteAttrs_lookup_ne (gid c : String) (a : List (String × String))
    (k : String) (hk1 : k ≠ "fill") (hk2 : k ≠ "style") :
    lookupA (rewriteAttrs gid c a) k = lookupA a k := by
  obtain ⟨b, hb, hr⟩ := rewriteAttrs_decomp gid c a
  have hbk : lookupA b k = lookupA a k := by
    rcases hb with hb | ⟨v, hv, hb⟩
    · rw [hb]
    · rw [hb, lookupA_dictInsert_ne _ _ _ _ hk1]
  rcases hr with hr | ⟨st, w, hst, hr⟩
  · rw [hr, hbk]
  · rw [hr, lookupA_dictInsert_ne _ _ _ _ hk2, hbk]

theorem replaceTree_tag (gid c : String) (e : Element) :
    (replaceTree gid c e).tag = e.tag := by
  cases e
  rfl

theorem replaceTree_children (gid c : String) (e : Element) :
    (replaceTree gid c e).children = replaceTreeList gid c e.children := by
  cases e
  rfl

theorem replaceTree_attrs (gid c : String) (e : Element) :
    (replaceTree gid c e).attrs = rewriteAttrs gid c e.attrs := by
  cases e
  rfl

theorem replaceTreeList_eq_map (gid c : String) (l : List Element) :
    replaceTreeList gid c l = l.map (replaceTree gid c) := by
  induction l with
  | nil => rfl
  | cons e es ih => rw [replaceTreeList, ih, List.map_cons]

theorem framePres_refl : ∀ e : Element, framePres e e = true := by
  intro e
  induction e using elemRec with
  | _ t a ch tx tl ih =>
    rw [framePres]
    simp only [Bool.and_eq_true, beq_self_eq_true, true_and]
    constructor
    · rw [List.all_eq_true]
      intro k hk
      simp
    · clear a
      induction ch with
      | nil => rfl
      | cons x xs ihl =>
        rw [framePresList, Bool.and_eq_true]
        exact ⟨ih x (by simp), ihl (fun y hy => ih y (by simp [hy]))⟩

theorem framePresList_trans (l1 : List Element)
    (ih : ∀ e ∈ l1, ∀ e2 e3, framePres e e2 = true → framePres e2 e3 = true →
      framePres e e3 = true) :
    ∀ l2 l3, framePresList l1 l2 = true → framePresList l2 l3 = true →
      framePresList l1 l3 = true := by
  induction l1 with
  | nil =>
    intro l2 l3 h12 h23
    cases l2 with
    | nil => exact h23
    | cons _ _ => exact absurd h12 (by rw [framePresList]; simp)
  | cons x xs ihl =>
    intro l2 l3 h12 h23
    cases l2 with
    | nil => exact absurd h12 (by rw [framePresList]; simp)
    | cons y ys =>
      cases l3 with
      | nil => exact absurd h23 (by rw [framePresList]; simp)
      | cons z zs =>
        rw [framePresList, Bool.and_eq_true] at h12 h23 ⊢
        exact ⟨ih x (by simp) y z h12.1 h23.1,
          ihl (fun w hw => ih w (by simp [hw])) ys zs h12.2 h23.2⟩

theorem framePres_trans : ∀ e1 e2 e3 : Element,
    framePres e1 e2 = true → framePres e2 e3 = true → framePres e1 e3 = true := by
  intro e1
  induction e1 using elemRec with
  | _ t a ch tx tl ih =>
    intro e2 e3 h12 h23
    obtain ⟨t2, a2, ch2, tx2, tl2⟩ := e2
    obtain ⟨t3, a3, ch3, tx3, tl3⟩ := e3
    rw [framePres, Bool.and_eq_true, Bool.and_eq_true, Bool.and_eq_true,
      Bool.and_eq_true, Bool.and_eq_true] at h12 h23 ⊢
    obtain ⟨⟨⟨⟨⟨ht12, hx12⟩, hl12⟩, hk12⟩, hv12⟩, hc12⟩ := h12
    obtain ⟨⟨⟨⟨⟨ht23, hx23⟩, hl23⟩, hk23⟩, hv23⟩, hc23⟩ := h23
    simp only [beq_iff_eq] at ht12 hx12 hl12 hk12 ht23 hx23 hl23 hk23
    refine ⟨⟨⟨⟨⟨by simp [ht12, ht23], by simp [hx12, hx23]⟩, by simp [hl12, hl23]⟩,
      by simp [hk12, hk23]⟩, ?_⟩,
      framePresList_trans ch (fun e he => ih e he) ch2 ch3 hc12 hc23⟩
    rw [List.all_eq_true]
    intro k hk
    by_cases hkf : k = "fill"
    · simp [hkf]
    · by_cases hks : k = "style"
      · simp [hks]
      · rw [List.all_eq_true] at hv12 hv23
        have h1 := hv12 k hk
        have h2 := hv23 k (by rw [← hk12]; exact hk)
        simp only [Bool.or_eq_true, beq_iff_eq] at h1 h2
        rcases h1 with (h1 | h1) | h1
        · exact absurd h1 hkf
        · exact absurd h1 hks
        · rcases h2 with (h2 | h2) | h2
          · exact absurd h2 hkf
          · exact absurd h2 hks
          · simp only [Bool.or_eq_true, beq_iff_eq]
            exact Or.inr (by rw [h2, h1])

theorem framePresList_replace (gid c : String) (l : List Element)
    (ih : ∀ e ∈ l, framePres e (replaceTree gid c e) = true) :
    framePresList l (replaceTreeList gid c l) = true := by
  induction l with
  | nil => rfl
  | cons x xs ihl =>
    rw [replaceTreeList, framePresList, Bool.and_eq_true]
    exact ⟨ih x (by simp), ihl (fun y hy => ih y (by simp [hy]))⟩

theorem framePres_replaceTree (gid c : String) :
    ∀ e : Element, framePres e (replaceTree gid c e) = true := by
  intro e
  induction e using elemRec with
  | _ t a ch tx tl ih =>
    rw [replaceTree, framePres]
    simp only [Bool.and_eq_true, beq_self_eq_true, true_and]
    refine ⟨⟨by simp [rewriteAttrs_keys], ?_⟩, framePresList_replace gid c ch ih⟩
    rw [List.all_eq_true]
    intro k hk
    by_cases hkf : k = "fill"
    · simp [hkf]
    · by_cases hks : k = "style"
      · simp [hks]
      · simp only [Bool.or_eq_true, beq_iff_eq]
        exact Or.inr (rewriteAttrs_lookup_ne gid c a k hkf hks)

theorem descListOf_replace (gid c : String) (l : List Element)
    (ih : ∀ e ∈ l, descTree (replaceTree gid c e) = (descTree e).map (replaceTree gid c)) :
    descListOf (replaceTreeList gid c l) = (descListOf l).map (replaceTree gid c) := by
  induction l with
  | nil => rfl
  | cons x xs ihl =>
    rw [replaceTreeList, descListOf, descListOf, List.map_append,
      ih x (by simp), ihl (fun y hy => ih y (by simp [hy]))]

theorem descTree_replace (gid c : String) :
    ∀ e : Element, descTree (replaceTree gid c e) = (descTree e).map (replaceTree gid c) := by
  intro e
  induction e using elemRec with
  | _ t a ch tx tl ih =>
    rw [replaceTree, descTree, descTree, List.map_cons, replaceTree]
    rw [descListOf_replace gid c ch ih]

theorem flatMap_congr_mem {α β : Type} {l : List α} {f g : α → List β}
    (h : ∀ x ∈ l, f x = g x) : l.flatMap f = l.flatMap g := by
  induction l with
  | nil => rfl
  | cons x xs ih =>
    rw [List.flatMap_cons, List.flatMap_cons, h x (by simp),
      ih (fun y hy => h y (by simp [hy]))]

theorem gradientsOf_replace (gid c : String) (root : Element) :
    gradientsOf (replaceTree gid c root) = (gradientsOf root).map (replaceTree gid c) := by
  rw [gradientsOf, gradientsOf, descendantsOf, descendantsOf, replaceTree_children]
  have hd : descListOf (replaceTreeList gid c root.children) =
      (descListOf root.children).map (replaceTree gid c) :=
    descListOf_replace gid c root.children (fun e _ => descTree_replace gid c e)
  rw [hd, List.filter_map]
  have hfc : ∀ x ∈ descListOf root.children,
      ((fun d => localName d.tag == "defs") ∘ replaceTree gid c) x =
        (fun d => localName d.tag == "defs") x := by
    intro x _
    simp [Function.comp, replaceTree_tag]
  rw [List.filter_congr hfc, List.flatMap_map, List.map_flatMap]
  apply flatMap_congr_mem
  intro d _
  rw [replaceTree_children, replaceTreeList_eq_map, List.filter_map]
  have hgc : ∀ x ∈ d.children,
      ((fun x => localName x.tag == "linearGradient") ∘ replaceTree gid c) x =
        (fun x => localName x.tag == "linearGradient") x := by
    intro x _
    simp [Function.comp, replaceTree_tag]
  rw [List.filter_congr hgc]

theorem processStep_cases {byId : List (String × Element)} {fuel : Nat}
    {acc g acc' : Element} (h : processStep byId fuel acc g = some acc') :
    acc' = acc ∨ ∃ gid col, getAttr g "id" = some gid ∧ gid ≠ "" ∧
      firstGradientColorF byId fuel g = some (some col) ∧ col ≠ "" ∧
      acc' = replaceTree gid col acc := by
  rw [processStep] at h
  split at h
  · exact Or.inl (Option.some.inj h).symm
  case h_2 gid hgid =>
    split at h
    · exact Or.inl (Option.some.inj h).symm
    case isFalse hne =>
      split at h
      case h_1 => exact absurd h (by simp)
      case h_2 => exact Or.inl (Option.some.inj h).symm
      case h_3 col hcol =>
        split at h
        · exact Or.inl (Option.some.inj h).symm
        case isFalse hcne =>
          exact Or.inr ⟨gid, col, hgid, hne, hcol, hcne, (Option.some.inj h).symm⟩

theorem processStepAt_cases {fuel : Nat} {acc : Element} {k : Nat} {acc' : Element}
    (h : processStepAt fuel acc k = some acc') :
    acc' = acc ∨ ∃ g gid col, (gradientsOf acc)[k]? = some g ∧
      getAttr g "id" = some gid ∧ gid ≠ "" ∧
      firstGradientColorF (buildById (gradientsOf acc)) fuel g = some (some col) ∧
      col ≠ "" ∧ acc' = replaceTree gid col acc := by
  rw [processStepAt] at h
  split at h
  · exact Or.inl (Option.some.inj h).symm
  case h_2 g hg =>
    rcases processStep_cases h with h' | ⟨gid, col, h1, h2, h3, h4, h5⟩
    · exact Or.inl h'
    · exact Or.inr ⟨g, gid, col, hg, h1, h2, h3, h4, h5⟩

theorem foldlM_stepInv (P : Element → Prop) (fuel : Nat)
    (hstep : ∀ a k a', P a → processStepAt fuel a k = some a' → P a') :
    ∀ (l : List Nat) (acc out : Element), P acc →
      l.foldlM (processStepAt fuel) acc = some out → P out := by
  intro l
  induction l with
  | nil =>
    intro acc out hP h
    rw [List.foldlM_nil] at h
    exact (Option.some.inj h) ▸ hP
  | cons k ks ih =>
    intro acc out hP h
    rw [List.foldlM_cons] at h
    cases hs : processStepAt fuel acc k with
    | none =>
      rw [hs] at h
      exact absurd h (by simp)
    | some a' =>
      rw [hs] at h
      exact ih a' out (hstep acc k a' hP hs) h

theorem processTreeF_inv (P : Element → Prop) {fuel : Nat} {root out : Element}
    (hstep : ∀ a k a', P a → processStepAt fuel a k = some a' → P a')
    (hinit : P root) (h : processTreeF fuel root = some out) : P out := by
  rw [processTreeF] at h
  exact foldlM_stepInv P fuel hstep _ root out hinit h

theorem getAttr_replaceTree_ne (gid c : String) (e : Element) (k : String)
    (hk1 : k ≠ "fill") (hk2 : k ≠ "style") :
    getAttr (replaceTree gid c e) k = getAttr e k := by
  rw [getAttr, getAttr, replaceTree_attrs, rewriteAttrs_lookup_ne gid c e.attrs k hk1 hk2]

/-- C10: the whole transformation only rewrites `fill` and `style` attribute
values — tags, text, tails, attribute key lists, every other attribute value
and the child structure are preserved (`framePres`) — and the found
linearGradient definitions remain in place, with the same tags and ids. -/
theorem C10_frame_effect (fuel : Nat) (root out : Element)
    (h : processTreeF fuel root = some out) :
    framePres root out = true ∧
    (gradientsOf out).map (fun g => (g.tag, getAttr g "id")) =
      (gradientsOf root).map (fun g => (g.tag, getAttr g "id")) := by
  refine processTreeF_inv
    (fun acc => framePres root acc = true ∧
      (gradientsOf acc).map (fun g => (g.tag, getAttr g "id")) =
        (gradientsOf root).map (fun g => (g.tag, getAttr g "id")))
    ?_ ⟨framePres_refl root, rfl⟩ h
  intro a k a' hP hstep
  rcases processStepAt_cases hstep with h' | ⟨g, gid, col, _, _, _, _, _, h5⟩
  · exact h' ▸ hP
  · subst h5
    refine ⟨framePres_trans root a _ hP.1 (framePres_replaceTree gid col a), ?_⟩
    rw [gradientsOf_replace, List.map_map, ← hP.2]
    refine List.map_congr_left ?_
    intro x _
    show (Element.tag (replaceTree gid col x), getAttr (replaceTree gid col x) "id") =
      (x.tag, getAttr x "id")
    rw [replaceTree_tag, getAttr_replaceTree_ne gid col x "id" (by decide) (by decide)]

theorem self_mem_descTree (e : Element) : e ∈ descTree e := by
  obtain ⟨t, a, ch, tx, tl⟩ := e
  rw [descTree]
  exact List.mem_cons_self _ _

theorem mem_descListOf_of {l : List Element} {x y : Element}
    (hx : x ∈ l) (hy : y ∈ descTree x) : y ∈ descListOf l := by
  induction l with
  | nil => exact absurd hx (by simp)
  | cons z zs ih =>
    rw [descListOf, List.mem_append]
    rcases List.mem_cons.mp hx with rfl | hx
    · exact Or.inl hy
    · exact Or.inr (ih hx)

theorem descListOf_mem_cases {l : List Element} {y : Element}
    (h : y ∈ descListOf l) : ∃ x ∈ l, y ∈ descTree x := by
  induction l with
  | nil => exact absurd h (by rw [descListOf] at h; simp at h)
  | cons z zs ih =>
    rw [descListOf, List.mem_append] at h
    rcases h with h | h
    · exact ⟨z, by simp, h⟩
    · obtain ⟨x, hx, hy⟩ := ih h
      exact ⟨x, by simp [hx], hy⟩

theorem mem_descTree_children : ∀ root e : Element, e ∈ descTree root →
    ∀ c ∈ e.children, c ∈ descTree root := by
  intro root
  induction root using elemRec with
  | _ t a ch tx tl ih =>
    intro e he c hc
    rw [descTree] at he ⊢
    rcases List.mem_cons.mp he with rfl | he
    · exact List.mem_cons_of_mem _ (mem_descListOf_of hc (self_mem_descTree c))
    · obtain ⟨x, hx, hy⟩ := descListOf_mem_cases he
      exact List.mem_cons_of_mem _ (mem_descListOf_of hx (ih x hx e hy c hc))

theorem gradientsOf_subset_desc {root g : Element} (h : g ∈ gradientsOf root) :
    g ∈ descTree root := by
  rw [gradientsOf, List.mem_flatMap] at h
  obtain ⟨d, hd, hg⟩ := h
  have hd' : d ∈ descendantsOf root := List.mem_of_mem_filter hd
  have hdd : d ∈ descTree root := by
    obtain ⟨t, a, ch, tx, tl⟩ := root
    rw [descTree]
    exact List.mem_cons_of_mem _ hd'
  exact mem_descTree_children root d hdd g (List.mem_of_mem_filter hg)

theorem dictInsertE_lookup_source {m : List (String × Element)} {k : String}
    {v : Element} {k' : String} {w : Element}
    (h : lookupE (dictInsertE m k v) k' = some w) : w = v ∨ lookupE m k' = some w := by
  induction m with
  | nil =>
    rw [dictInsertE, lookupE] at h
    split at h
    · exact Or.inl (Option.some.inj h).symm
    · exact absurd h (by simp [lookupE])
  | cons p rest ih =>
    obtain ⟨k0, v0⟩ := p
    rw [dictInsertE] at h
    by_cases h0 : k0 = k
    · rw [if_pos h0, lookupE] at h
      by_cases h1 : k0 = k'
      · rw [if_pos h1] at h
        exact Or.inl (Option.some.inj h).symm
      · rw [if_neg h1] at h
        rw [lookupE, if_neg h1]
        exact Or.inr h
    · rw [if_neg h0, lookupE] at h
      by_cases h1 : k0 = k'
      · rw [if_pos h1] at h
        rw [lookupE, if_pos h1]
        exact Or.inr h
      · rw [if_neg h1] at h
        rcases ih h with h' | h'
        · exact Or.inl h'
        · rw [lookupE, if_neg h1]
          exact Or.inr h'

theorem buildById_source_aux (gs : List Element) :
    ∀ (m : List (String × Element)) (k : String) (w : Element),
      lookupE (gs.foldl
        (fun m g =>
          match getAttr g "id" with
          | some gid => if gid = "" then m else dictInsertE m gid g
          | none => m) m) k = some w →
      w ∈ gs ∨ lookupE m k = some w := by
  induction gs with
  | nil => intro m k w h; exact Or.inr h
  | cons g gs ih =>
    intro m k w h
    rw [List.foldl_cons] at h
    rcases ih _ k w h with h' | h'
    · exact Or.inl (List.mem_cons_of_mem _ h')
    · revert h'
      cases getAttr g "id" with
      | none => exact fun h' => Or.inr h'
      | some gid =>
        dsimp only
        by_cases hne : gid = ""
        · rw [if_pos hne]
          exact fun h' => Or.inr h'
        · rw [if_neg hne]
          intro h'
          rcases dictInsertE_lookup_source h' with h'' | h''
          · exact Or.inl (h'' ▸ List.mem_cons_self _ _)
          · exact Or.inr h''

theorem buildById_source {gs : List Element} {k : String} {w : Element}
    (h : lookupE (buildById gs) k = some w) : w ∈ gs := by
  rcases buildById_source_aux gs [] k w h with h' | h'
  · exact h'
  · exact absurd h' (by rw [lookupE]; simp)

theorem lookupE_map_snd (φ : Element → Element) (m : List (String × Element)) (k : String) :
    lookupE (m.map (fun p => (p.1, φ p.2))) k = (lookupE m k).map φ := by
  induction m with
  | nil => rfl
  | cons p rest ih =>
    obtain ⟨k0, v0⟩ := p
    rw [List.map_cons, lookupE, lookupE]
    split
    · rfl
    · exact ih

theorem dictInsertE_map_snd (φ : Element → Element) (m : List (String × Element))
    (k : String) (v : Element) :
    dictInsertE (m.map (fun p => (p.1, φ p.2))) k (φ v) =
      (dictInsertE m k v).map (fun p => (p.1, φ p.2)) := by
  induction m with
  | nil => rfl
  | cons p rest ih =>
    obtain ⟨k0, v0⟩ := p
    rw [List.map_cons, dictInsertE, dictInsertE]
    split
    · rw [List.map_cons]
    · rw [List.map_cons, ih]

theorem buildById_map_aux (gid c : String) (gs : List Element) :
    ∀ m : List (String × Element),
      (gs.map (replaceTree gid c)).foldl
        (fun m g =>
          match getAttr g "id" with
          | some gid => if gid = "" then m else dictInsertE m gid g
          | none => m) (m.map (fun p => (p.1, replaceTree gid c p.2))) =
      (gs.foldl
        (fun m g =>
          match getAttr g "id" with
          | some gid => if gid = "" then m else dictInsertE m gid g
          | none => m) m).map (fun p => (p.1, replaceTree gid c p.2)) := by
  induction gs with
  | nil => intro m; rfl
  | cons g gs ih =>
    intro m
    rw [List.map_cons, List.foldl_cons, List.foldl_cons]
    rw [getAttr_replaceTree_ne gid c g "id" (by decide) (by decide)]
    cases getAttr g "id" with
    | none => exact ih m
    | some gid0 =>
      dsimp only
      by_cases hne : gid0 = ""
      · rw [if_pos hne, if_pos hne]
        exact ih m
      · rw [if_neg hne, if_neg hne, dictInsertE_map_snd]
        exact ih _

theorem buildById_map (gid c : String) (gs : List Element) :
    buildById (gs.map (replaceTree gid c)) =
      (buildById gs).map (fun p => (p.1, replaceTree gid c p.2)) :=
  buildById_map_aux gid c gs []

theorem fillHits_congr {gid : String} {a b : List (String × String)}
    (h : lookupA b "fill" = lookupA a "fill") : fillHits gid b = fillHits gid a := by
  rw [fillHits, fillHits, h]

theorem styleHits_congr {gid : String} {a b : List (String × String)}
    (h : lookupA b "style" = lookupA a "style") : styleHits gid b = styleHits gid a := by
  rw [styleHits, styleHits, h]

theorem fillHits_some {gid : String} {a : List (String × String)}
    (h : fillHits gid a = true) :
    ∃ v, lookupA a "fill" = some v ∧ v ≠ "" ∧ isFillUrlRef v gid = true := by
  rw [fillHits] at h
  split at h
  case h_1 v hv =>
    split at h
    case isTrue hc => exact ⟨v, hv, hc.1, hc.2⟩
    case isFalse => exact absurd h (by simp)
  case h_2 => exact absurd h (by simp)

theorem styleHits_some {gid : String} {a : List (String × String)}
    (h : styleHits gid a = true) :
    ∃ st sf, lookupA a "style" = some st ∧ st ≠ "" ∧
      lookupA (parseStyle st) "fill" = some sf ∧ sf ≠ "" ∧ isFillUrlRef sf gid = true := by
  rw [styleHits] at h
  split at h
  case h_1 st hst =>
    split at h
    case isTrue hne =>
      split at h
      case h_1 sf hsf =>
        split at h
        case isTrue hc => exact ⟨st, sf, hst, hne, hsf, hc.1, hc.2⟩
        case isFalse => exact absurd h (by simp)
      case h_2 => exact absurd h (by simp)
    case isFalse => exact absurd h (by simp)
  case h_2 => exact absurd h (by simp)

theorem rewriteAttrs_full_decomp (gid c : String) (a : List (String × String)) :
    ∃ b, ((fillHits gid a = false ∧ b = a) ∨
          (fillHits gid a = true ∧ b = dictInsert a "fill" c)) ∧
      lookupA b "style" = lookupA a "style" ∧
      ((styleHits gid a = false ∧ rewriteAttrs gid c a = b) ∨
       (styleHits gid a = true ∧ ∃ st, lookupA a "style" = some st ∧
         rewriteAttrs gid c a =
           dictInsert b "style" (formatStyle (dictInsert (parseStyle st) "fill" c)))) := by
  rw [rewriteAttrs]
  cases hf : lookupA a "fill" with
  | none =>
    have hfh : fillHits gid a = false := by simp [fillHits, hf]
    dsimp only
    refine ⟨a, Or.inl ⟨hfh, rfl⟩, rfl, ?_⟩
    cases hs : lookupA a "style" with
    | none => exact Or.inl ⟨by simp [styleHits, hs], rfl⟩
    | some st =>
      dsimp only
      split
      next hst => exact Or.inl ⟨by simp [styleHits, hs, hst], rfl⟩
      next hst =>
        cases hsf : lookupA (parseStyle st) "fill" with
        | none => exact Or.inl ⟨by simp [styleHits, hs, hst, hsf], rfl⟩
        | some sf =>
          dsimp only
          split
          next hc =>
            exact Or.inr ⟨by simp [styleHits, hs, hst, hsf, hc.1, hc.2], st, rfl, rfl⟩
          next hc =>
            exact Or.inl ⟨by simp [styleHits, hs, hst, hsf, hc], rfl⟩
  | some f =>
    dsimp only
    by_cases hcond : f ≠ "" ∧ isFillUrlRef f gid = true
    · rw [if_pos hcond]
      have hfh : fillHits gid a = true := by simp [fillHits, hf, hcond.1, hcond.2]
      have hstyeq : lookupA (dictInsert a "fill" c) "style" = lookupA a "style" :=
        lookupA_dictInsert_ne a "fill" c "style" (by decide)
      refine ⟨dictInsert a "fill" c, Or.inr ⟨hfh, rfl⟩, hstyeq, ?_⟩
      rw [hstyeq]
      cases hs : lookupA a "style" with
      | none => exact Or.inl ⟨by simp [styleHits, hs], rfl⟩
      | some st =>
        dsimp only
        split
        next hst => exact Or.inl ⟨by simp [styleHits, hs, hst], rfl⟩
        next hst =>
          cases hsf : lookupA (parseStyle st) "fill" with
          | none => exact Or.inl ⟨by simp [styleHits, hs, hst, hsf], rfl⟩
          | some sf =>
            dsimp only
            split
            next hc =>
              exact Or.inr ⟨by simp [styleHits, hs, hst, hsf, hc.1, hc.2], st, rfl, rfl⟩
            next hc =>
              exact Or.inl ⟨by simp [styleHits, hs, hst, hsf, hc], rfl⟩
    · rw [if_neg hcond]
      have hfh : fillHits gid a = false := by simp [fillHits, hf, hcond]
      refine ⟨a, Or.inl ⟨hfh, rfl⟩, rfl, ?_⟩
      cases hs : lookupA a "style" with
      | none => exact Or.inl ⟨by simp [styleHits, hs], rfl⟩
      | some st =>
        dsimp only
        split
        next hst => exact Or.inl ⟨by simp [styleHits, hs, hst], rfl⟩
        next hst =>
          cases hsf : lookupA (parseStyle st) "fill" with
          | none => exact Or.inl ⟨by simp [styleHits, hs, hst, hsf], rfl⟩
          | some sf =>
            dsimp only
            split
            next hc =>
              exact Or.inr ⟨by simp [styleHits, hs, hst, hsf, hc.1, hc.2], st, rfl, rfl⟩
            next hc =>
              exact Or.inl ⟨by simp [styleHits, hs, hst, hsf, hc], rfl⟩

theorem rA_fill_pos (gid c : String) (a : List (String × String))
    (h : fillHits gid a = true) :
    lookupA (rewriteAttrs gid c a) "fill" = some c := by
  obtain ⟨b, hb, _, hr⟩ := rewriteAttrs_full_decomp gid c a
  have hbf : lookupA b "fill" = some c := by
    rcases hb with ⟨hf, rfl⟩ | ⟨_, rfl⟩
    · rw [hf] at h; exact absurd h (by simp)
    · exact lookupA_dictInsert_self a "fill" c
  rcases hr with ⟨_, hr⟩ | ⟨_, st, _, hr⟩
  · rw [hr]; exact hbf
  · rw [hr, lookupA_dictInsert_ne _ _ _ _ (by decide)]; exact hbf

theorem rA_fill_neg (gid c : String) (a : List (String × String))
    (h : fillHits gid a = false) :
    lookupA (rewriteAttrs gid c a) "fill" = lookupA a "fill" := by
  obtain ⟨b, hb, _, hr⟩ := rewriteAttrs_full_decomp gid c a
  have hbf : lookupA b "fill" = lookupA a "fill" := by
    rcases hb with ⟨_, rfl⟩ | ⟨hf, rfl⟩
    · rfl
    · rw [hf] at h; exact absurd h (by simp)
  rcases hr with ⟨_, hr⟩ | ⟨_, st, _, hr⟩
  · rw [hr]; exact hbf
  · rw [hr, lookupA_dictInsert_ne _ _ _ _ (by decide)]; exact hbf

theorem rA_style_neg (gid c : String) (a : List (String × String))
    (h : styleHits gid a = false) :
    lookupA (rewriteAttrs gid c a) "style" = lookupA a "style" := by
  obtain ⟨b, _, hbs, hr⟩ := rewriteAttrs_full_decomp gid c a
  rcases hr with ⟨_, hr⟩ | ⟨hsh, _⟩
  · rw [hr]; exact hbs
  · rw [h] at hsh; exact absurd hsh (by simp)

theorem rA_style_pos (gid c : String) (a : List (String × String)) {st : String}
    (h : styleHits gid a = true) (hst : lookupA a "style" = some st) :
    lookupA (rewriteAttrs gid c a) "style" =
      some (formatStyle (dictInsert (parseStyle st) "fill" c)) := by
  obtain ⟨b, _, hbs, hr⟩ := rewriteAttrs_full_decomp gid c a
  rcases hr with ⟨hsh, _⟩ | ⟨_, st', hst', hr⟩
  · rw [h] at hsh; exact absurd hsh (by simp)
  · obtain rfl : st' = st := Option.some.inj (hst'.symm.trans hst)
    rw [hr, lookupA_dictInsert_self]

theorem isFillUrlRef_none_of {c : String}
    (h : (matchUrlRef (stripL c.data)).isNone = true) :
    ∀ gid, isFillUrlRef c gid = false := by
  intro gid
  rw [isFillUrlRef]
  cases hm : matchUrlRef (stripL c.data) with
  | none => rfl
  | some idc => rw [hm] at h; exact absurd h (by simp)

theorem isFillUrlRef_unique {v a b : String} (ha : isFillUrlRef v a = true)
    (hb : isFillUrlRef v b = true) : a = b := by
  rw [isFillUrlRef] at ha hb
  cases hm : matchUrlRef (stripL v.data) with
  | none => rw [hm] at ha; exact absurd ha (by simp)
  | some idc =>
    rw [hm] at ha hb
    have ha' : (if idc = a.data then true else false) = true := ha
    have hb' : (if idc = b.data then true else false) = true := hb
    by_cases h1 : idc = a.data
    · by_cases h2 : idc = b.data
      · have hd : a.data = b.data := h1.symm.trans h2
        have hab : (⟨a.data⟩ : String) = (⟨b.data⟩ : String) := by rw [hd]
        exact (string_eta a).symm.trans (hab.trans (string_eta b))
      · rw [if_neg h2] at hb'; exact absurd hb' (by simp)
    · rw [if_neg h1] at ha'; exact absurd ha' (by simp)

theorem dictInsert_ne_nil (m : List (String × String)) (k v : String) :
    dictInsert m k v ≠ [] := by
  cases m with
  | nil => simp [dictInsert]
  | cons p rest =>
    rw [dictInsert]
    split <;> simp

theorem formatStyle_data (m : List (String × String)) :
    (formatStyle m).data =
      joinSS ((m.filter (fun p => !(p.1 == "") && !(p.2 == ""))).map entryRender) ++
        (if m = [] then [] else [semiC]) := rfl

theorem formatStyle_ne_empty {m : List (String × String)} (hm : m ≠ []) :
    formatStyle m ≠ "" := by
  intro h
  have hd : (formatStyle m).data = [] := by rw [h]
  rw [formatStyle_data, if_neg hm] at hd
  simp at hd

theorem fillHits_rewrite (gid gid' c : String)
    (hcref : isFillUrlRef c gid = false) (a : List (String × String))
    (hprev : fillHits gid a = false ∨ gid' = gid) :
    fillHits gid (rewriteAttrs gid' c a) = false := by
  cases hf : fillHits gid' a with
  | true =>
    rw [fillHits, rA_fill_pos gid' c a hf]
    simp [hcref]
  | false =>
    rw [fillHits_congr (rA_fill_neg gid' c a hf)]
    rcases hprev with hp | rfl
    · exact hp
    · exact hf

theorem styleHits_rewrite (gid gid' c : String) (hc : valWF c) (hcne : c ≠ "")
    (hcref : isFillUrlRef c gid = false) (a : List (String × String))
    (hprev : styleHits gid a = false ∨ gid' = gid) :
    styleHits gid (rewriteAttrs gid' c a) = false := by
  cases hs : styleHits gid' a with
  | true =>
    obtain ⟨st, sf, hst, hstne, hsf, hsfne, _⟩ := styleHits_some hs
    rw [styleHits, rA_style_pos gid' c a hs hst]
    have hwne : formatStyle (dictInsert (parseStyle st) "fill" c) ≠ "" :=
      formatStyle_ne_empty (dictInsert_ne_nil _ _ _)
    have hwf : StyleWF (dictInsert (parseStyle st) "fill" c) :=
      StyleWF_dictInsert (parseStyle_WF st) ⟨by decide, by decide, by decide⟩ hc
    have hlf : lookupA (parseStyle (formatStyle (dictInsert (parseStyle st) "fill" c)))
        "fill" = some c := by
      have hcondf : ¬("fill" = "" ∨ c = "") := by
        rintro (h1 | h2)
        · exact absurd h1 (by decide)
        · exact hcne h2
      rw [parseStyle_formatStyle _ hwf, lookupA_filter_pred _ hwf.2 "fill",
        lookupA_dictInsert_self]
      show (if "fill" = "" ∨ c = "" then none else some c) = some c
      rw [if_neg hcondf]
    simp [hwne, hlf, hcref]
  | false =>
    rw [styleHits_congr (rA_style_neg gid' c a hs)]
    rcases hprev with hp | rfl
    · exact hp
    · exact hs

theorem extractStopColorStyle_rewrite (gid c : String) (hc : valWF c) (hcne : c ≠ "")
    (t t' : String) (a : List (String × String)) (ch ch' : List Element)
    (tx tx' tl tl' : Option String) :
    extractStopColorStyle (.mk t' (rewriteAttrs gid c a) ch' tx' tl') =
      extractStopColorStyle (.mk t a ch tx tl) := by
  rw [extractStopColorStyle, extractStopColorStyle]
  show (match lookupA (rewriteAttrs gid c a) "style" with
    | some st =>
      if st = "" then none
      else
        match lookupA (parseStyle st) "stop-color" with
        | some c => if c = "" then none else some (pyStrip c)
        | none => none
    | none => none) =
    (match lookupA a "style" with
    | some st =>
      if st = "" then none
      else
        match lookupA (parseStyle st) "stop-color" with
        | some c => if c = "" then none else some (pyStrip c)
        | none => none
    | none => none)
  cases hsh : styleHits gid a with
  | false => rw [rA_style_neg gid c a hsh]
  | true =>
    obtain ⟨st, sf, hst, hstne, hsf, hsfne, _⟩ := styleHits_some hsh
    rw [rA_style_pos gid c a hsh hst, hst]
    have hwne : formatStyle (dictInsert (parseStyle st) "fill" c) ≠ "" :=
      formatStyle_ne_empty (dictInsert_ne_nil _ _ _)
    have hwf : StyleWF (dictInsert (parseStyle st) "fill" c) :=
      StyleWF_dictInsert (parseStyle_WF st) ⟨by decide, by decide, by decide⟩ hc
    have hsc : lookupA (parseStyle (formatStyle (dictInsert (parseStyle st) "fill" c)))
        "stop-color" =
        match lookupA (parseStyle st) "stop-color" with
        | some v => if v = "" then none else some v
        | none => none := by
      rw [parseStyle_formatStyle _ hwf, lookupA_filter_pred _ hwf.2 "stop-color",
        lookupA_dictInsert_ne _ _ _ _ (by decide)]
      cases hv : lookupA (parseStyle st) "stop-color" with
      | none => rfl
      | some v =>
        show (if "stop-color" = "" ∨ v = "" then none else some v) =
          (if v = "" then none else some v)
        by_cases hve : v = ""
        · rw [if_pos (Or.inr hve), if_pos hve]
        · rw [if_neg (by rintro (h1 | h2); exact absurd h1 (by decide); exact hve h2),
            if_neg hve]
    dsimp only
    rw [if_neg hwne, if_neg hstne, hsc]
    cases hv : lookupA (parseStyle st) "stop-color" with
    | none => rfl
    | some v =>
      by_cases hve : v = ""
      · subst hve
        rfl
      · show (match (if v = "" then none else some v : Option String) with
          | some c => if c = "" then none else some (pyStrip c)
          | none => none) = (if v = "" then none else some (pyStrip v))
        rw [if_neg hve]

theorem extractStopColor_rewrite (gid c : String) (hc : valWF c) (hcne : c ≠ "")
    (t t' : String) (a : List (String × String)) (ch ch' : List Element)
    (tx tx' tl tl' : Option String) :
    extractStopColor (.mk t' (rewriteAttrs gid c a) ch' tx' tl') =
      extractStopColor (.mk t a ch tx tl) := by
  rw [extractStopColor, extractStopColor]
  have hsc : getAttr (Element.mk t' (rewriteAttrs gid c a) ch' tx' tl') "stop-color" =
      getAttr (Element.mk t a ch tx tl) "stop-color" := by
    show lookupA (rewriteAttrs gid c a) "stop-color" = lookupA a "stop-color"
    exact rewriteAttrs_lookup_ne gid c a "stop-color" (by decide) (by decide)
  rw [hsc]
  have hsty := extractStopColorStyle_rewrite gid c hc hcne t t' a ch ch' tx tx' tl tl'
  cases getAttr (Element.mk t a ch tx tl) "stop-color" with
  | none => exact hsty
  | some c0 =>
    by_cases h0 : c0 = ""
    · subst h0
      show extractStopColorStyle _ = extractStopColorStyle _
      exact hsty
    · show (if c0 = "" then extractStopColorStyle _ else some (pyStrip c0)) =
        (if c0 = "" then extractStopColorStyle _ else some (pyStrip c0))
      rw [if_neg h0, if_neg h0]

theorem extractStopColor_replaceTree (gid c : String) (hc : valWF c) (hcne : c ≠ "")
    (e : Element) :
    extractStopColor (replaceTree gid c e) = extractStopColor e := by
  obtain ⟨t, a, ch, tx, tl⟩ := e
  rw [replaceTree]
  exact extractStopColor_rewrite gid c hc hcne t t a ch (replaceTreeList gid c ch) tx tx tl tl

theorem stopYield_rewrite (gid c : String) (hc : valWF c) (hcne : c ≠ "") (e : Element) :
    stopYield (replaceTree gid c e) = stopYield e := by
  obtain ⟨t, a, ch, tx, tl⟩ := e
  rw [stopYield, stopYield, replaceTree]
  show (if ("stop".data).isSuffixOf t.data then _ else none) =
    (if ("stop".data).isSuffixOf t.data then _ else none)
  by_cases ht : ("stop".data).isSuffixOf t.data = true
  · rw [if_pos ht, if_pos ht]
    rw [show Element.mk t (rewriteAttrs gid c a) (replaceTreeList gid c ch) tx tl =
      replaceTree gid c (Element.mk t a ch tx tl) from rfl]
    rw [extractStopColor_replaceTree gid c hc hcne]
  · rw [if_neg ht, if_neg ht]

theorem findSome?_congr {α β : Type} {f g : α → Option β} :
    ∀ l : List α, (∀ x ∈ l, f x = g x) → l.findSome? f = l.findSome? g := by
  intro l
  induction l with
  | nil => intro _; rfl
  | cons x xs ih =>
    intro h
    rw [List.findSome?_cons, List.findSome?_cons, h x (by simp)]
    cases g x with
    | some b => rfl
    | none => exact ih (fun y hy => h y (by simp [hy]))

theorem firstStopColor_rewrite (gid c : String) (hc : valWF c) (hcne : c ≠ "")
    (g : Element) :
    firstStopColor (replaceTree gid c g) = firstStopColor g := by
  rw [firstStopColor, firstStopColor, replaceTree_children, replaceTreeList_eq_map,
    List.findSome?_map]
  exact findSome?_congr g.children
    (fun x _ => stopYield_rewrite gid c hc hcne x)

theorem getHref_rewrite (gid c : String) (g : Element) :
    getHref (replaceTree gid c g) = getHref g := by
  rw [getHref, getHref,
    getAttr_replaceTree_ne gid c g xlinkHref (by decide) (by decide),
    getAttr_replaceTree_ne gid c g "href" (by decide) (by decide),
    getAttr_replaceTree_ne gid c g xlinkHREF (by decide) (by decide),
    getAttr_replaceTree_ne gid c g "HREF" (by decide) (by decide)]

theorem firstGradientColorF_rewrite (gid c : String) (hc : valWF c) (hcne : c ≠ "")
    (byId : List (String × Element)) :
    ∀ (fuel : Nat) (g : Element) (r : Option String),
      firstGradientColorF byId fuel g = some r →
      firstGradientColorF (byId.map (fun p => (p.1, replaceTree gid c p.2))) fuel
          (replaceTree gid c g) = some r ∨
      firstGradientColorF (byId.map (fun p => (p.1, replaceTree gid c p.2))) fuel
          (replaceTree gid c g) = some none := by
  intro fuel
  induction fuel with
  | zero =>
    intro g r h
    exact absurd h (by rw [firstGradientColorF]; simp)
  | succ n ih =>
    intro g r h
    rw [firstGradientColorF] at h
    cases hfs : firstStopColor g with
    | some col =>
      rw [hfs] at h
      have h' : some (some col) = some r := h
      left
      rw [firstGradientColorF, firstStopColor_rewrite gid c hc hcne g, hfs]
      exact h'
    | none =>
      rw [hfs] at h
      dsimp only at h
      cases hh : getHref g with
      | none =>
        rw [hh] at h
        left
        rw [firstGradientColorF, firstStopColor_rewrite gid c hc hcne g, hfs,
          getHref_rewrite gid c g, hh]
        exact h
      | some h0 =>
        rw [hh] at h
        dsimp only at h
        have hgoal : firstGradientColorF (byId.map (fun p => (p.1, replaceTree gid c p.2)))
            (n + 1) (replaceTree gid c g) =
            (if h0.data.head? = some hashC then
              (match lookupE (byId.map (fun p => (p.1, replaceTree gid c p.2)))
                  ⟨h0.data.drop 1⟩ with
               | some ref => if ref = replaceTree gid c g then some none
                 else firstGradientColorF
                   (byId.map (fun p => (p.1, replaceTree gid c p.2))) n ref
               | none => some none)
            else some none) := by
          rw [firstGradientColorF, firstStopColor_rewrite gid c hc hcne g, hfs,
            getHref_rewrite gid c g, hh]
        rw [hgoal]
        by_cases hhash : h0.data.head? = some hashC
        · rw [if_pos hhash] at h ⊢
          rw [lookupE_map_snd (replaceTree gid c) byId ⟨h0.data.drop 1⟩]
          cases hlk : lookupE byId ⟨h0.data.drop 1⟩ with
          | none =>
            rw [hlk] at h
            left
            rw [Option.map_none']
            exact h
          | some ref =>
            rw [hlk] at h
            dsimp only at h
            rw [Option.map_some']
            dsimp only
            by_cases href : ref = g
            · rw [if_pos href] at h
              rw [if_pos (by rw [href])]
              exact Or.inl h
            · rw [if_neg href] at h
              by_cases himg : replaceTree gid c ref = replaceTree gid c g
              · rw [if_pos himg]
                exact Or.inr rfl
              · rw [if_neg himg]
                exact ih ref r h
        · rw [if_neg hhash] at h ⊢
          exact Or.inl h

theorem firstStopColor_source {g : Element} {col : String}
    (h : firstStopColor g = some col) :
    ∃ st ∈ g.children, extractStopColor st = some col ∧ col ≠ "" := by
  rw [firstStopColor] at h
  obtain ⟨st, hmem, hy⟩ := List.exists_of_findSome?_eq_some h
  refine ⟨st, hmem, ?_⟩
  rw [stopYield] at hy
  split at hy
  · split at hy
    case h_1 c0 hex =>
      split at hy
      next => exact absurd hy (by simp)
      next hc0 =>
        obtain rfl : c0 = col := Option.some.inj hy
        exact ⟨hex, hc0⟩
    case h_2 => exact absurd hy (by simp)
  · exact absurd hy (by simp)

theorem extractStopColor_stripped {e : Element} {c : String}
    (h : extractStopColor e = some c) : stripL c.data = c.data := by
  have hsty : ∀ s : String, extractStopColorStyle e = some s → stripL s.data = s.data := by
    intro s hs
    rw [extractStopColorStyle] at hs
    split at hs
    case h_1 st hst =>
      split at hs
      next => exact absurd hs (by simp)
      next hstne =>
        split at hs
        case h_1 v hv =>
          split at hs
          next => exact absurd hs (by simp)
          next hvne =>
            obtain rfl : pyStrip v = s := Option.some.inj hs
            exact stripL_idem v.data
        case h_2 => exact absurd hs (by simp)
    case h_2 => exact absurd hs (by simp)
  rw [extractStopColor] at h
  split at h
  case h_1 c0 hattr =>
    split at h
    next => exact hsty c h
    next h0 =>
      obtain rfl : pyStrip c0 = c := Option.some.inj h
      exact stripL_idem c0.data
  case h_2 => exact hsty c h

theorem firstGradientColorF_source (byId : List (String × Element)) :
    ∀ (fuel : Nat) (g : Element) (col : String),
      firstGradientColorF byId fuel g = some (some col) →
      ∃ g', (g' = g ∨ ∃ k, lookupE byId k = some g') ∧ firstStopColor g' = some col := by
  intro fuel
  induction fuel with
  | zero =>
    intro g col h
    exact absurd h (by rw [firstGradientColorF]; simp)
  | succ n ih =>
    intro g col h
    rw [firstGradientColorF] at h
    cases hfs : firstStopColor g with
    | some c0 =>
      rw [hfs] at h
      have h' : some (some c0) = some (some col) := h
      obtain rfl : c0 = col := Option.some.inj (Option.some.inj h')
      exact ⟨g, Or.inl rfl, hfs⟩
    | none =>
      rw [hfs] at h
      dsimp only at h
      cases hh : getHref g with
      | none =>
        rw [hh] at h
        exact absurd h (by simp)
      | some h0 =>
        rw [hh] at h
        dsimp only at h
        by_cases hhash : h0.data.head? = some hashC
        · rw [if_pos hhash] at h
          cases hlk : lookupE byId ⟨h0.data.drop 1⟩ with
          | none =>
            rw [hlk] at h
            exact absurd h (by simp)
          | some ref =>
            rw [hlk] at h
            dsimp only at h
            by_cases href : ref = g
            · rw [if_pos href] at h
              exact absurd h (by simp)
            · rw [if_neg href] at h
              obtain ⟨g', hsrc, hfsc⟩ := ih ref col h
              refine ⟨g', ?_, hfsc⟩
              rcases hsrc with rfl | hsrc
              · exact Or.inr ⟨⟨h0.data.drop 1⟩, hlk⟩
              · exact Or.inr hsrc
        · rw [if_neg hhash] at h
          exact absurd h (by simp)

theorem resolved_color_props (P : String → Bool) {root : Element} {fuel : Nat}
    {g : Element} {col : String}
    (hroot : stopsPred P root = true)
    (hg : g ∈ gradientsOf root)
    (h : firstGradientColorF (buildById (gradientsOf root)) fuel g = some (some col)) :
    P col = true ∧ stripL col.data = col.data := by
  obtain ⟨g', hsrc, hfsc⟩ := firstGradientColorF_source _ fuel g col h
  have hg' : g' ∈ gradientsOf root := by
    rcases hsrc with rfl | ⟨k, hk⟩
    · exact hg
    · exact buildById_source hk
  obtain ⟨st, hstm, hex, _⟩ := firstStopColor_source hfsc
  have hdesc : st ∈ descTree root :=
    mem_descTree_children root g' (gradientsOf_subset_desc hg') st hstm
  rw [stopsPred, List.all_eq_true] at hroot
  have hp := hroot st hdesc
  rw [hex] at hp
  exact ⟨hp, extractStopColor_stripped hex⟩

theorem stopsPred_rewrite (P : String → Bool) (gid c : String) (hc : valWF c)
    (hcne : c ≠ "") {root : Element} (h : stopsPred P root = true) :
    stopsPred P (replaceTree gid c root) = true := by
  rw [stopsPred, descTree_replace, List.all_eq_true]
  intro x hx
  obtain ⟨e, he, rfl⟩ := List.mem_map.mp hx
  rw [extractStopColor_replaceTree gid c hc hcne e]
  rw [stopsPred, List.all_eq_true] at h
  exact h e he

theorem noMatch_replaceTree (gid gid' c : String) (hc : valWF c) (hcne : c ≠ "")
    (hcref : isFillUrlRef c gid = false) (e : Element)
    (hprev : gid' = gid ∨ noMatch gid e = true) :
    noMatch gid (replaceTree gid' c e) = true := by
  rw [noMatch, descTree_replace, List.all_eq_true]
  intro x hx
  obtain ⟨y, hy, rfl⟩ := List.mem_map.mp hx
  have hfp : fillHits gid y.attrs = false ∨ gid' = gid := by
    rcases hprev with h | h
    · exact Or.inr h
    · rw [noMatch, List.all_eq_true] at h
      have := h y hy
      simp only [Bool.and_eq_true, Bool.not_eq_true'] at this
      exact Or.inl this.1
  have hsp : styleHits gid y.attrs = false ∨ gid' = gid := by
    rcases hprev with h | h
    · exact Or.inr h
    · rw [noMatch, List.all_eq_true] at h
      have := h y hy
      simp only [Bool.and_eq_true, Bool.not_eq_true'] at this
      exact Or.inl this.2
  obtain ⟨t, a, ch, tx, tl⟩ := y
  rw [replaceTree]
  simp only [Element.attrs] at hfp hsp ⊢
  simp only [Bool.and_eq_true, Bool.not_eq_true']
  exact ⟨fillHits_rewrite gid gid' c hcref a hfp,
    styleHits_rewrite gid gid' c hc hcne hcref a hsp⟩

theorem rewriteAttrs_id {gid c : String} {a : List (String × String)}
    (hf : fillHits gid a = false) (hs : styleHits gid a = false) :
    rewriteAttrs gid c a = a := by
  obtain ⟨b, hb, _, hr⟩ := rewriteAttrs_full_decomp gid c a
  rcases hb with ⟨_, rfl⟩ | ⟨hfh, _⟩
  · rcases hr with ⟨_, hr⟩ | ⟨hsh, _⟩
    · exact hr
    · rw [hs] at hsh
      exact absurd hsh (by simp)
  · rw [hf] at hfh
    exact absurd hfh (by simp)

theorem replaceTree_id (gid c : String) :
    ∀ e : Element, noMatch gid e = true → replaceTree gid c e = e := by
  intro e
  induction e using elemRec with
  | _ t a ch tx tl ih =>
    intro h
    rw [noMatch, descTree, List.all_cons, Bool.and_eq_true] at h
    obtain ⟨hhead, htail⟩ := h
    simp only [Element.attrs, Bool.and_eq_true, Bool.not_eq_true'] at hhead
    have hxs : ∀ x ∈ ch, noMatch gid x = true := by
      intro x hx
      rw [noMatch, List.all_eq_true]
      intro z hz
      rw [List.all_eq_true] at htail
      exact htail z (mem_descListOf_of hx hz)
    have hch : ∀ x ∈ ch, replaceTree gid c x = x := fun x hx => ih x hx (hxs x hx)
    rw [replaceTree, rewriteAttrs_id hhead.1 hhead.2, replaceTreeList_eq_map]
    rw [List.map_congr_left hch]
    rw [show ch.map (fun x => x) = ch.map id from rfl, List.map_id]

theorem processStep_id {byId : List (String × Element)} {fuel : Nat} {acc g : Element}
    (h : ∀ gid, getAttr g "id" = some gid → gid ≠ "" →
      ∃ r, firstGradientColorF byId fuel g = some r ∧
        (r = none ∨ r = some "" ∨ ∃ c, r = some c ∧ replaceTree gid c acc = acc)) :
    processStep byId fuel acc g = some acc := by
  rw [processStep]
  cases hid : getAttr g "id" with
  | none => rfl
  | some gid =>
    dsimp only
    by_cases hne : gid = ""
    · rw [if_pos hne]
    · rw [if_neg hne]
      obtain ⟨r, hres, hcase⟩ := h gid hid hne
      rw [hres]
      rcases hcase with rfl | rfl | ⟨c, rfl, hrep⟩
      · rfl
      · rfl
      · show (if c = "" then some acc else some (replaceTree gid c acc)) = some acc
        by_cases hce : c = ""
        · rw [if_pos hce]
        · rw [if_neg hce, hrep]

theorem processStepAt_id {fuel : Nat} {acc : Element} {k : Nat}
    (h : ∀ g, (gradientsOf acc)[k]? = some g →
      processStep (buildById (gradientsOf acc)) fuel acc g = some acc) :
    processStepAt fuel acc k = some acc := by
  show (match (gradientsOf acc)[k]? with
    | none => some acc
    | some g => processStep (buildById (gradientsOf acc)) fuel acc g) = some acc
  cases hg : (gradientsOf acc)[k]? with
  | none => rfl
  | some g => exact h g hg

theorem foldlM_self {fuel : Nat} {acc : Element} :
    ∀ l : List Nat, (∀ k ∈ l, processStepAt fuel acc k = some acc) →
      l.foldlM (processStepAt fuel) acc = some acc := by
  intro l
  induction l with
  | nil => intro _; rfl
  | cons k ks ih =>
    intro h
    rw [List.foldlM_cons, h k (by simp)]
    exact ih (fun j hj => h j (by simp [hj]))

theorem processStepAt_full {fuel : Nat} {acc : Element} {k : Nat} {acc' : Element}
    (h : processStepAt fuel acc k = some acc') :
    (((gradientsOf acc)[k]? = none ∨
      (∃ g, (gradientsOf acc)[k]? = some g ∧
        (getAttr g "id" = none ∨ getAttr g "id" = some "" ∨
         (∃ gid, getAttr g "id" = some gid ∧ gid ≠ "" ∧
           (firstGradientColorF (buildById (gradientsOf acc)) fuel g = some none ∨
            firstGradientColorF (buildById (gradientsOf acc)) fuel g =
              some (some "")))))) ∧
      acc' = acc) ∨
    (∃ g gid col, (gradientsOf acc)[k]? = some g ∧ getAttr g "id" = some gid ∧
      gid ≠ "" ∧
      firstGradientColorF (buildById (gradientsOf acc)) fuel g = some (some col) ∧
      col ≠ "" ∧ acc' = replaceTree gid col acc) := by
  rw [processStepAt] at h
  split at h
  case h_1 hg => exact Or.inl ⟨Or.inl hg, (Option.some.inj h).symm⟩
  case h_2 g hg =>
    rw [processStep] at h
    split at h
    case h_1 hid => exact Or.inl ⟨Or.inr ⟨g, hg, Or.inl hid⟩, (Option.some.inj h).symm⟩
    case h_2 gid hid =>
      split at h
      next hemp =>
        exact Or.inl ⟨Or.inr ⟨g, hg, Or.inr (Or.inl (hemp ▸ hid))⟩,
          (Option.some.inj h).symm⟩
      next hne =>
        split at h
        case h_1 hres => exact absurd h (by simp)
        case h_2 hres =>
          exact Or.inl ⟨Or.inr ⟨g, hg, Or.inr (Or.inr ⟨gid, hid, hne, Or.inl hres⟩)⟩,
            (Option.some.inj h).symm⟩
        case h_3 col hres =>
          split at h
          next hcol =>
            exact Or.inl ⟨Or.inr ⟨g, hg, Or.inr (Or.inr ⟨gid, hid, hne,
              Or.inr (hcol ▸ hres)⟩)⟩, (Option.some.inj h).symm⟩
          next hcol =>
            exact Or.inr ⟨g, gid, col, hg, hid, hne, hres, hcol,
              (Option.some.inj h).symm⟩

theorem StepDone_skip {fuel : Nat} {acc : Element} {k : Nat}
    (h : (gradientsOf acc)[k]? = none ∨
      ∃ g, (gradientsOf acc)[k]? = some g ∧
        (getAttr g "id" = none ∨ getAttr g "id" = some "" ∨
         (∃ gid, getAttr g "id" = some gid ∧ gid ≠ "" ∧
           (firstGradientColorF (buildById (gradientsOf acc)) fuel g = some none ∨
            firstGradientColorF (buildById (gradientsOf acc)) fuel g =
              some (some ""))))) :
    StepDone fuel acc k := by
  intro g hg gid hid hne
  rcases h with h | ⟨g0, hg0, hcases⟩
  · rw [h] at hg
    exact absurd hg (by simp)
  · rw [hg0] at hg
    obtain rfl : g0 = g := Option.some.inj hg
    rcases hcases with h | h | ⟨gid0, hid0, hne0, hres⟩
    · rw [h] at hid
      exact absurd hid (by simp)
    · rw [h] at hid
      exact absurd (Option.some.inj hid).symm hne
    · rcases hres with hres | hres
      · exact ⟨none, hres, Or.inl rfl⟩
      · exact ⟨some "", hres, Or.inr (Or.inl rfl)⟩

theorem StepDone_rewrite (fuel : Nat) (acc : Element) (j : Nat) (gid' col : String)
    (hc : valWF col) (hcne : col ≠ "")
    (hcref : ∀ gidx, isFillUrlRef col gidx = false)
    (hdone : StepDone fuel acc j) :
    StepDone fuel (replaceTree gid' col acc) j := by
  intro g' hg' gid hid hne
  rw [gradientsOf_replace, List.getElem?_map] at hg'
  cases hga : (gradientsOf acc)[j]? with
  | none =>
    rw [hga] at hg'
    exact absurd hg' (by simp)
  | some g =>
    rw [hga] at hg'
    obtain rfl : replaceTree gid' col g = g' := by simpa using hg'
    have hid0 : getAttr g "id" = some gid := by
      rw [← getAttr_replaceTree_ne gid' col g "id" (by decide) (by decide)]
      exact hid
    obtain ⟨r, hres, hcase⟩ := hdone g hga gid hid0 hne
    have hbid : buildById (gradientsOf (replaceTree gid' col acc)) =
        (buildById (gradientsOf acc)).map (fun p => (p.1, replaceTree gid' col p.2)) := by
      rw [gradientsOf_replace, buildById_map]
    rcases firstGradientColorF_rewrite gid' col hc hcne _ fuel g r hres with hfw | hfw
    · refine ⟨r, by rw [hbid]; exact hfw, ?_⟩
      rcases hcase with h | h | ⟨c, rfl, hcne2, hnm⟩
      · exact Or.inl h
      · exact Or.inr (Or.inl h)
      · exact Or.inr (Or.inr ⟨c, rfl, hcne2,
          noMatch_replaceTree gid gid' col hc hcne (hcref gid) acc (Or.inr hnm)⟩)
    · exact ⟨none, by rw [hbid]; exact hfw, Or.inl rfl⟩

theorem StepDone_self (fuel : Nat) (acc : Element) (k : Nat) (g : Element)
    (gid col : String)
    (hg : (gradientsOf acc)[k]? = some g) (hid : getAttr g "id" = some gid)
    (hres : firstGradientColorF (buildById (gradientsOf acc)) fuel g = some (some col))
    (hcol : col ≠ "") (hc : valWF col)
    (hcref : ∀ gidx, isFillUrlRef col gidx = false) :
    StepDone fuel (replaceTree gid col acc) k := by
  intro g' hg' gid2 hid2 hne2
  rw [gradientsOf_replace, List.getElem?_map, hg] at hg'
  obtain rfl : replaceTree gid col g = g' := by simpa using hg'
  have hid0 : getAttr g "id" = some gid2 := by
    rw [← getAttr_replaceTree_ne gid col g "id" (by decide) (by decide)]
    exact hid2
  have hgid : gid = gid2 := by
    rw [hid] at hid0
    exact Option.some.inj hid0
  subst hgid
  have hbid : buildById (gradientsOf (replaceTree gid col acc)) =
      (buildById (gradientsOf acc)).map (fun p => (p.1, replaceTree gid col p.2)) := by
    rw [gradientsOf_replace, buildById_map]
  rcases firstGradientColorF_rewrite gid col hc hcol _ fuel g (some col) hres with hfw | hfw
  · exact ⟨some col, by rw [hbid]; exact hfw, Or.inr (Or.inr ⟨col, rfl, hcol,
      noMatch_replaceTree gid gid col hc hcol (hcref gid) acc (Or.inl rfl)⟩)⟩
  · exact ⟨none, by rw [hbid]; exact hfw, Or.inl rfl⟩

theorem run1_all_done (fuel : Nat) :
    ∀ (l : List Nat) (acc out : Element),
      stopsGood acc = true →
      l.foldlM (processStepAt fuel) acc = some out →
      stopsGood out = true ∧
      (gradientsOf out).length = (gradientsOf acc).length ∧
      (∀ j, StepDone fuel acc j → StepDone fuel out j) ∧
      (∀ j ∈ l, StepDone fuel out j) := by
  intro l
  induction l with
  | nil =>
    intro acc out hgood h
    rw [List.foldlM_nil] at h
    obtain rfl : acc = out := Option.some.inj h
    exact ⟨hgood, rfl, fun j hj => hj, fun j hj => absurd hj (by simp)⟩
  | cons k ks ih =>
    intro acc out hgood h
    rw [List.foldlM_cons] at h
    cases hs : processStepAt fuel acc k with
    | none =>
      rw [hs] at h
      exact absurd h (by simp)
    | some a' =>
      rw [hs] at h
      rcases processStepAt_full hs with ⟨hskip, heq⟩ |
        ⟨g, gid, col, hg, hid, hne, hres, hcol, heq⟩
      · rw [heq] at h
        obtain ⟨hgo, hlen, hpres, hdone⟩ := ih acc out hgood h
        refine ⟨hgo, hlen, hpres, ?_⟩
        intro j hj
        rcases List.mem_cons.mp hj with rfl | hj
        · exact hpres j (StepDone_skip hskip)
        · exact hdone j hj
      · rw [heq] at h
        have hmem : g ∈ gradientsOf acc := List.getElem?_mem hg
        have hprops := resolved_color_props goodColor hgood hmem hres
        have hgc2 := hprops.1
        rw [goodColor, Bool.and_eq_true] at hgc2
        obtain ⟨hns, hnr⟩ := hgc2
        have hvw : valWF col := ⟨hprops.2, hns⟩
        have hcref : ∀ gidx, isFillUrlRef col gidx = false := isFillUrlRef_none_of hnr
        have hgood' : stopsGood (replaceTree gid col acc) = true :=
          stopsPred_rewrite goodColor gid col hvw hcol hgood
        obtain ⟨hgo, hlen, hpres, hdone⟩ := ih _ out hgood' h
        refine ⟨hgo, ?_, ?_, ?_⟩
        · rw [hlen, gradientsOf_replace, List.length_map]
        · intro j hj
          exact hpres j (StepDone_rewrite fuel acc j gid col hvw hcol hcref hj)
        · intro j hj
          rcases List.mem_cons.mp hj with rfl | hj
          · exact hpres j (StepDone_self fuel acc j g gid col hg hid hres hcol hvw hcref)
          · exact hdone j hj

/-- C9: counterexample to the claim as stated.  In `c9Doc` the gradient `h1`
resolves to the literal color `url(#h2)`.  The first application rewrites the
rect's fill to `url(#h2)` — a reference to the resolvable gradient `h2` that
remains in the output — and a second application changes the document again,
so the transformation is not idempotent. -/
theorem C9_counterexample :
    processTreeF 3 c9Doc = some c9Mid ∧
    processTreeF 3 c9Mid = some c9Out2 ∧
    c9Mid ≠ c9Out2 ∧
    (∃ g ∈ gradientsOf c9Mid, getAttr g "id" = some "h2" ∧
      firstGradientColorF (buildById (gradientsOf c9Mid)) 3 g = some (some "red")) ∧
    (∃ e ∈ descTree c9Mid, getAttr e "fill" = some "url(#h2)" ∧
      isFillUrlRef "url(#h2)" "h2" = true) := by decide

/-- C9 (amended): the transformation is idempotent provided every stop color
extractable from the document is a plain token — semicolon-free and not
itself a `url(...)` reference.  Under that proviso a completed run is a fixed
point: applying the transformation to its own output returns the output
unchanged, and for every gradient of the output that resolves to a non-empty
color, no direct-fill or style-fill reference to its id remains anywhere in
the output.  (Without the proviso both parts fail: a resolved color that is
itself `url(#other)` leaves a resolvable reference behind and a second run
changes it.) -/
theorem C9_idempotent_plain (fuel : Nat) (root out : Element)
    (hrun : processTreeF fuel root = some out)
    (hgood : stopsGood root = true) :
    processTreeF fuel out = some out ∧
    (∀ g ∈ gradientsOf out, ∀ gid col, getAttr g "id" = some gid → gid ≠ "" →
      firstGradientColorF (buildById (gradientsOf out)) fuel g = some (some col) →
      col ≠ "" → noMatch gid out = true) := by
  rw [processTreeF] at hrun
  obtain ⟨hgoodout, hlen, _, hdone⟩ := run1_all_done fuel _ root out hgood hrun
  have hdone' : ∀ j, j < (gradientsOf out).length → StepDone fuel out j := by
    intro j hj
    rw [hlen] at hj
    exact hdone j (List.mem_range.mpr hj)
  constructor
  · rw [processTreeF]
    apply foldlM_self
    intro k hk
    have hks := hdone' k (List.mem_range.mp hk)
    apply processStepAt_id
    intro g hg
    apply processStep_id
    intro gid hid hne
    obtain ⟨r, hres, hcase⟩ := hks g hg gid hid hne
    refine ⟨r, hres, ?_⟩
    rcases hcase with h | h | ⟨c, rfl, hc, hnm⟩
    · exact Or.inl h
    · exact Or.inr (Or.inl h)
    · exact Or.inr (Or.inr ⟨c, rfl, replaceTree_id gid c out hnm⟩)
  · intro g hgmem gid col hid hne hres hcol
    obtain ⟨j, hj⟩ := List.getElem?_of_mem hgmem
    have hjlt : j < (gradientsOf out).length := by
      have hj' := hj
      rw [List.getElem?_eq_some_iff] at hj'
      exact hj'.1
    obtain ⟨r, hres0, hcase⟩ := hdone' j hjlt g hj gid hid hne
    rw [hres] at hres0
    obtain rfl : some col = r := Option.some.inj hres0
    rcases hcase with h | h | ⟨c, hcr, hc, hnm⟩
    · exact absurd h (by simp)
    · exact absurd (Option.some.inj h) hcol
    · obtain rfl : col = c := Option.some.inj hcr
      exact hnm

theorem C9_witness :
    (processTreeF 2 c9WDoc = some c9WOut ∧ stopsGood c9WDoc = true) ∧
    (processTreeF 2 c9WOut = some c9WOut ∧
      (∀ g ∈ gradientsOf c9WOut, ∀ gid col, getAttr g "id" = some gid → gid ≠ "" →
        firstGradientColorF (buildById (gradientsOf c9WOut)) 2 g = some (some col) →
        col ≠ "" → noMatch gid c9WOut = true)) :=
  ⟨⟨by decide, by decide⟩, C9_idempotent_plain 2 c9WDoc c9WOut (by decide) (by decide)⟩

theorem fillsPreserved_refl (gid : String) : ∀ e : Element, fillsPreserved gid e e = true := by
  intro e
  induction e using elemRec with
  | _ t a ch tx tl ih =>
    rw [fillsPreserved]
    simp only [Bool.and_eq_true]
    refine ⟨⟨?_, ?_⟩, ?_⟩
    · split <;> simp
    · split <;> simp
    · clear a
      induction ch with
      | nil => rfl
      | cons x xs ihl =>
        rw [fillsPreservedList, Bool.and_eq_true]
        exact ⟨ih x (by simp), ihl (fun y hy => ih y (by simp [hy]))⟩

theorem fillsPreservedList_trans (gid : String) (l1 : List Element)
    (ih : ∀ e ∈ l1, ∀ e2 e3, fillsPreserved gid e e2 = true →
      fillsPreserved gid e2 e3 = true → fillsPreserved gid e e3 = true) :
    ∀ l2 l3, fillsPreservedList gid l1 l2 = true →
      fillsPreservedList gid l2 l3 = true → fillsPreservedList gid l1 l3 = true := by
  induction l1 with
  | nil =>
    intro l2 l3 h12 h23
    cases l2 with
    | nil => exact h23
    | cons _ _ => exact absurd h12 (by rw [fillsPreservedList]; simp)
  | cons x xs ihl =>
    intro l2 l3 h12 h23
    cases l2 with
    | nil => exact absurd h12 (by rw [fillsPreservedList]; simp)
    | cons y ys =>
      cases l3 with
      | nil => exact absurd h23 (by rw [fillsPreservedList]; simp)
      | cons z zs =>
        rw [fillsPreservedList, Bool.and_eq_true] at h12 h23 ⊢
        exact ⟨ih x (by simp) y z h12.1 h23.1,
          ihl (fun w hw => ih w (by simp [hw])) ys zs h12.2 h23.2⟩

theorem fillsPreserved_trans (gid : String) : ∀ e1 e2 e3 : Element,
    fillsPreserved gid e1 e2 = true → fillsPreserved gid e2 e3 = true →
    fillsPreserved gid e1 e3 = true := by
  intro e1
  induction e1 using elemRec with
  | _ t a ch tx tl ih =>
    intro e2 e3 h12 h23
    obtain ⟨t2, a2, ch2, tx2, tl2⟩ := e2
    obtain ⟨t3, a3, ch3, tx3, tl3⟩ := e3
    rw [fillsPreserved, Bool.and_eq_true, Bool.and_eq_true] at h12 h23 ⊢
    obtain ⟨⟨hf12, hs12⟩, hc12⟩ := h12
    obtain ⟨⟨hf23, hs23⟩, hc23⟩ := h23
    refine ⟨⟨?_, ?_⟩,
      fillsPreservedList_trans gid ch (fun e he => ih e he) ch2 ch3 hc12 hc23⟩
    · by_cases hfa : fillHits gid a = true
      · rw [if_pos hfa] at hf12 ⊢
        have hv12 : lookupA a2 "fill" = lookupA a "fill" := by simpa using hf12
        have hfa2 : fillHits gid a2 = true := by rw [fillHits_congr hv12]; exact hfa
        rw [if_pos hfa2] at hf23
        have hv23 : lookupA a3 "fill" = lookupA a2 "fill" := by simpa using hf23
        simp [hv23, hv12]
      · rw [if_neg hfa]
    · by_cases hsa : styleHits gid a = true
      · rw [if_pos hsa] at hs12 ⊢
        have hv12 : lookupA a2 "style" = lookupA a "style" := by simpa using hs12
        have hsa2 : styleHits gid a2 = true := by rw [styleHits_congr hv12]; exact hsa
        rw [if_pos hsa2] at hs23
        have hv23 : lookupA a3 "style" = lookupA a2 "style" := by simpa using hs23
        simp [hv23, hv12]
      · rw [if_neg hsa]

theorem fillsPreservedList_step (gid gid' c : String) (l : List Element)
    (ih : ∀ e ∈ l, fillsPreserved gid e (replaceTree gid' c e) = true) :
    fillsPreservedList gid l (replaceTreeList gid' c l) = true := by
  induction l with
  | nil => rfl
  | cons x xs ihl =>
    rw [replaceTreeList, fillsPreservedList, Bool.and_eq_true]
    exact ⟨ih x (by simp), ihl (fun y hy => ih y (by simp [hy]))⟩

theorem fillsPreserved_step (gid gid' c : String) (hne : gid' ≠ gid) :
    ∀ e : Element, fillsPreserved gid e (replaceTree gid' c e) = true := by
  intro e
  induction e using elemRec with
  | _ t a ch tx tl ih =>
    rw [replaceTree, fillsPreserved, Bool.and_eq_true, Bool.and_eq_true]
    refine ⟨⟨?_, ?_⟩, fillsPreservedList_step gid gid' c ch ih⟩
    · by_cases hfa : fillHits gid a = true
      · rw [if_pos hfa]
        have hf' : fillHits gid' a = false := by
          cases hgf : fillHits gid' a with
          | false => rfl
          | true =>
            obtain ⟨v, hv, hvne, hvr⟩ := fillHits_some hfa
            obtain ⟨v', hv', hvne', hvr'⟩ := fillHits_some hgf
            obtain rfl : v = v' := Option.some.inj (hv.symm.trans hv')
            exact absurd (isFillUrlRef_unique hvr hvr') (fun hh => hne hh.symm)
        rw [rA_fill_neg gid' c a hf']
        simp
      · rw [if_neg hfa]
    · by_cases hsa : styleHits gid a = true
      · rw [if_pos hsa]
        have hs' : styleHits gid' a = false := by
          cases hgs : styleHits gid' a with
          | false => rfl
          | true =>
            obtain ⟨st, sf, hst, hstne, hsf, hsfne, hsr⟩ := styleHits_some hsa
            obtain ⟨st', sf', hst', hstne', hsf', hsfne', hsr'⟩ := styleHits_some hgs
            obtain rfl : st = st' := Option.some.inj (hst.symm.trans hst')
            obtain rfl : sf = sf' := Option.some.inj (hsf.symm.trans hsf')
            exact absurd (isFillUrlRef_unique hsr hsr') (fun hh => hne hh.symm)
        rw [rA_style_neg gid' c a hs']
        simp
      · rw [if_neg hsa]

theorem run_c6 (fuel : Nat) (gid : String) :
    ∀ (l : List Nat) (acc out : Element),
      stopsPlain acc = true →
      (∀ g ∈ gradientsOf acc, getAttr g "id" = some gid →
        firstGradientColorF (buildById (gradientsOf acc)) fuel g = some none) →
      l.foldlM (processStepAt fuel) acc = some out →
      fillsPreserved gid acc out = true := by
  intro l
  induction l with
  | nil =>
    intro acc out hplain hunres h
    rw [List.foldlM_nil] at h
    obtain rfl : acc = out := Option.some.inj h
    exact fillsPreserved_refl gid acc
  | cons k ks ih =>
    intro acc out hplain hunres h
    rw [List.foldlM_cons] at h
    cases hs : processStepAt fuel acc k with
    | none =>
      rw [hs] at h
      exact absurd h (by simp)
    | some a' =>
      rw [hs] at h
      rcases processStepAt_full hs with ⟨_, heq⟩ |
        ⟨g, gidk, col, hg, hid, hnek, hres, hcol, heq⟩
      · rw [heq] at h
        exact ih acc out hplain hunres h
      · rw [heq] at h
        have hmem : g ∈ gradientsOf acc := List.getElem?_mem hg
        have hne : gidk ≠ gid := by
          intro hh
          subst hh
          rw [hunres g hmem hid] at hres
          exact absurd (Option.some.inj hres) (by simp)
        have hprops := resolved_color_props noSemi hplain hmem hres
        have hvw : valWF col := ⟨hprops.2, hprops.1⟩
        have hplain' : stopsPlain (replaceTree gidk col acc) = true :=
          stopsPred_rewrite noSemi gidk col hvw hcol hplain
        have hunres' : ∀ g' ∈ gradientsOf (replaceTree gidk col acc),
            getAttr g' "id" = some gid →
            firstGradientColorF
              (buildById (gradientsOf (replaceTree gidk col acc))) fuel g' =
              some none := by
          intro g' hg' hid'
          rw [gradientsOf_replace] at hg'
          obtain ⟨g0, hg0, rfl⟩ := List.mem_map.mp hg'
          have hid0 : getAttr g0 "id" = some gid := by
            rw [← getAttr_replaceTree_ne gidk col g0 "id" (by decide) (by decide)]
            exact hid'
          have hr0 := hunres g0 hg0 hid0
          have hbid : buildById (gradientsOf (replaceTree gidk col acc)) =
              (buildById (gradientsOf acc)).map
                (fun p => (p.1, replaceTree gidk col p.2)) := by
            rw [gradientsOf_replace, buildById_map]
          rw [hbid]
          rcases firstGradientColorF_rewrite gidk col hvw hcol _ fuel g0 none hr0
            with hfw | hfw
          · exact hfw
          · exact hfw
        have htail := ih _ out hplain' hunres' h
        exact fillsPreserved_trans gid acc _ out
          (fillsPreserved_step gid gidk col hne acc) htail

/-- C6: counterexample to the claim as stated.  In `c6Doc` the gradient `g2`
is unresolvable from the original document, yet the run rewrites the
`url(#g2)` fill: the pass for `g1` substitutes the semicolon-carrying color
into the stop's style, and its re-parse hands `g2` the smuggled
`stop-color: green`. -/
theorem C6_counterexample :
    firstGradientColorF (buildById (gradientsOf c6Doc)) 5 c6G2 = some none ∧
    processTreeF 5 c6Doc = some c6Out ∧
    (∃ e ∈ descTree c6Doc, getAttr e "fill" = some "url(#g2)") ∧
    (∀ e ∈ descTree c6Out, getAttr e "fill" ≠ some "url(#g2)") := by decide

/-- C6 (amended): an unresolvable gradient is handled non-fatally — the loop
step for a gradient with no id, an empty id, or a resolution yielding no
color returns the tree unchanged and the run continues — and, provided every
extractable stop color in the document is semicolon-free (so no pass can
smuggle a `stop-color` declaration into another gradient's stop via the style
round-trip), every element whose direct fill or style fill references the
unresolvable gradient id keeps that attribute value in the output. -/
theorem C6_unresolvable_preserved (fuel : Nat) (root out : Element) (gid : String)
    (hrun : processTreeF fuel root = some out)
    (hplain : stopsPlain root = true)
    (hunres : ∀ g ∈ gradientsOf root, getAttr g "id" = some gid →
      firstGradientColorF (buildById (gradientsOf root)) fuel g = some none) :
    fillsPreserved gid root out = true ∧
    (∀ (byId : List (String × Element)) (f : Nat) (acc g : Element),
      (getAttr g "id" = none ∨ getAttr g "id" = some "" ∨
        firstGradientColorF byId f g = some none) →
      processStep byId f acc g = some acc) := by
  constructor
  · rw [processTreeF] at hrun
    exact run_c6 fuel gid _ root out hplain hunres hrun
  · intro byId f acc g hcase
    apply processStep_id
    intro gid' hid hne
    rcases hcase with h | h | h
    · rw [h] at hid
      exact absurd hid (by simp)
    · rw [h] at hid
      exact absurd (Option.some.inj hid).symm hne
    · exact ⟨none, h, Or.inl rfl⟩

theorem C6_witness :
    (processTreeF 2 c6WDoc = some c6WDoc ∧ stopsPlain c6WDoc = true ∧
      (∀ g ∈ gradientsOf c6WDoc, getAttr g "id" = some "gu" →
        firstGradientColorF (buildById (gradientsOf c6WDoc)) 2 g = some none)) ∧
    (fillsPreserved "gu" c6WDoc c6WDoc = true ∧
      (∀ (byId : List (String × Element)) (f : Nat) (acc g : Element),
        (getAttr g "id" = none ∨ getAttr g "id" = some "" ∨
          firstGradientColorF byId f g = some none) →
        processStep byId f acc g = some acc)) :=
  ⟨⟨by decide, by decide, by decide⟩,
    C6_unresolvable_preserved 2 c6WDoc c6WDoc "gu" (by decide) (by decide) (by decide)⟩

theorem C10_witness :
    processTreeF 2 pDoc = some pOut ∧
    (framePres pDoc pOut = true ∧
      (gradientsOf pOut).map (fun g => (g.tag, getAttr g "id")) =
        (gradientsOf pDoc).map (fun g => (g.tag, getAttr g "id"))) :=
  ⟨by decide, C10_frame_effect 2 pDoc pOut (by decide)⟩

end SVGGR
